import Mathlib

/-!
Verification of the `gate city` contract-checking engine
(`internal/city/city.go`) against its specification.

The Go code is shallowly embedded: strings are `List Char`, pure Go
functions become Lean functions, and the only effectful inputs the
embedded checks consume (the filesystem seen through `os.Lstat`, the
walk of the install directory, the git probe, and the contract loader)
are passed in explicitly as values.  Models of the Go standard library
functions used by the source (`path.Clean`, `path.Match`,
`strings.Split`, `strings.TrimSpace`, ...) are named with a `go`
prefix and follow the documented semantics of those functions.
-/

set_option maxHeartbeats 1000000

abbrev Str := List Char

/-- Model of Go `unicode.IsSpace`: the whitespace characters recognised
by `strings.TrimSpace`: the Latin-1 cases `\t \n \v \f \r` space, NEL
and NBSP, plus the Unicode `White_Space` code points U+1680,
U+2000..U+200A, U+2028, U+2029, U+202F, U+205F and U+3000. -/
def goIsSpace (c : Char) : Bool :=
  c = ' ' ∨ c = '\t' ∨ c = '\n' ∨ c = Char.ofNat 11 ∨ c = Char.ofNat 12 ∨
    c = '\r' ∨ c = Char.ofNat 133 ∨ c = Char.ofNat 160 ∨
    c = Char.ofNat 0x1680 ∨ (0x2000 ≤ c.toNat ∧ c.toNat ≤ 0x200A) ∨
    c = Char.ofNat 0x2028 ∨ c = Char.ofNat 0x2029 ∨ c = Char.ofNat 0x202F ∨
    c = Char.ofNat 0x205F ∨ c = Char.ofNat 0x3000

/-- Model of Go `strings.TrimSpace`: drop whitespace from both ends. -/
def trimSpace (s : Str) : Str :=
  ((s.dropWhile goIsSpace).reverse.dropWhile goIsSpace).reverse

/-- Model of Go `strings.ReplaceAll(p, "\\", "/")` for a one-character
pattern: replace every backslash by a forward slash. -/
def replaceBackslash (s : Str) : Str :=
  s.map fun c => if c = '\\' then '/' else c

/-- Model of Go `path.IsAbs`: a path is absolute iff it starts with `/`. -/
def isRooted (s : Str) : Bool :=
  s.head? = some '/'

/-- Model of Go `strings.Split(v, "/")`. -/
def splitSlash (s : Str) : List Str :=
  s.splitOn '/'

/-- Model of Go `strings.HasSuffix(v, "/")`. -/
def hasSuffixSlash (v : Str) : Bool :=
  v.getLast? = some '/'

/-- Model of Go `strings.HasPrefix(clean, "../")`. -/
def hasPrefixDotDotSlash (v : Str) : Bool :=
  List.isPrefixOf ['.', '.', '/'] v

/-- Model of Go `strings.TrimSuffix(f, "/")`: remove one trailing slash
if present. -/
def trimSuffixSlash (f : Str) : Str :=
  if hasSuffixSlash f then f.dropLast else f

deriving instance DecidableEq for Except

/-- The segment-elimination loop of Go `path.Clean`, with the output
accumulated in reverse.  Empty and `.` segments are dropped; a `..`
segment pops the previous segment unless the accumulator is empty (kept
for a relative path, dropped for a rooted one) or ends in `..`. -/
def cleanSegsRev (rooted : Bool) : List Str → List Str → List Str
  | acc, [] => acc
  | acc, s :: rest =>
    if s = [] ∨ s = ['.'] then cleanSegsRev rooted acc rest
    else if s = ['.', '.'] then
      if acc = [] then
        if rooted then cleanSegsRev rooted [] rest
        else cleanSegsRev rooted [s] rest
      else if acc.head? = some ['.', '.'] then cleanSegsRev rooted (s :: acc) rest
      else cleanSegsRev rooted acc.tail rest
    else cleanSegsRev rooted (s :: acc) rest

/-- The cleaned segment list of Go `path.Clean`, in order. -/
def cleanSegs (rooted : Bool) (l : List Str) : List Str :=
  (cleanSegsRev rooted [] l).reverse

/-- Model of Go `path.Clean`: split on `/`, eliminate `.`/empty/`..`
segments per the Plan 9 rules, rejoin, and return `.` for an empty
result. -/
def goPathClean (s : Str) : Str :=
  let rooted := isRooted s
  let segs := cleanSegs rooted (splitSlash s)
  let out := (if rooted then ['/'] else []) ++ List.intercalate ['/'] segs
  if out = [] then ['.'] else out

/-- `splitSegments` from city.go: split on `/` and drop empty and `.`
parts. -/
def splitSegments (v : Str) : List Str :=
  (splitSlash v).filter fun p => ¬(p = [] ∨ p = ['.'])

/-- `hasGlobMeta` from city.go: Go `strings.ContainsAny(v, "*?[")`. -/
def hasGlobMeta (v : Str) : Bool :=
  v.any fun c => c = '*' ∨ c = '?' ∨ c = '['

/-- One token of a glob pattern as understood by Go `path.Match`:
a literal character, `?`, `*`, or a (possibly negated) character
class. -/
inductive GTok : Type
  | star : GTok
  | qmark : GTok
  | lit : Char → GTok
  | cls : Bool → List (Char × Char) → GTok
deriving DecidableEq

/-- Model of `getEsc` inside Go `path.Match`: read one (possibly
backslash-escaped) class character; the class must not end right after
it and it may not be a bare `-` or `]`. -/
def getEsc : Str → Option (Char × Str)
  | [] => none
  | c :: rest =>
    if c = '-' ∨ c = ']' then none
    else if c = '\\' then
      match rest with
      | [] => none
      | d :: rest2 => if rest2 = [] then none else some (d, rest2)
    else if rest = [] then none else some (c, rest)

/-- The range-list loop of the class parser in Go `path.Match`: read
`lo` or `lo-hi` ranges until a closing `]`; at least one range is
required before the `]`.  The loop consumes at least one character per
iteration, so a fuel of `s.length + 1` always suffices; fuel is used
only to make the recursion structural. -/
def lexRangesF : Nat → List (Char × Char) → Str → Option (List (Char × Char) × Str)
  | 0, _, _ => none
  | fuel + 1, acc, s =>
    if s.head? = some ']' then
      if acc = [] then none else some (acc.reverse, s.tail)
    else
      match getEsc s with
      | none => none
      | some (lo, s1) =>
        if s1.head? = some '-' then
          match getEsc s1.tail with
          | none => none
          | some (hi, s3) => lexRangesF fuel ((lo, hi) :: acc) s3
        else lexRangesF fuel ((lo, lo) :: acc) s1

/-- The class parser of Go `path.Match`, applied to the text after the
opening `[`: an optional `^` negation flag, then the ranges. -/
def lexClassStart (s : Str) : Option (Bool × List (Char × Char) × Str) :=
  if s.head? = some '^' then
    match lexRangesF (s.tail.length + 1) [] s.tail with
    | none => none
    | some (rs, rest2) => some (true, rs, rest2)
  else
    match lexRangesF (s.length + 1) [] s with
    | none => none
    | some (rs, rest2) => some (false, rs, rest2)

/-- The tokenizer of Go `path.Match`: a `*` or `?` becomes a wildcard
token, `\\c` and plain characters become literal tokens, `[` opens a
character class; a trailing backslash or a malformed class is
`ErrBadPattern`, modelled as `none`.  Every step consumes at least one
character, so a fuel of `s.length + 1` always suffices; fuel only makes
the recursion structural (and so kernel-computable). -/
def lexGlobF : Nat → Str → Option (List GTok)
  | 0, _ => none
  | _ + 1, [] => some []
  | fuel + 1, c :: rest =>
    if c = '*' then (lexGlobF fuel rest).map fun ts => GTok.star :: ts
    else if c = '?' then (lexGlobF fuel rest).map fun ts => GTok.qmark :: ts
    else if c = '\\' then
      match rest with
      | [] => none
      | d :: rest2 => (lexGlobF fuel rest2).map fun ts => GTok.lit d :: ts
    else if c = '[' then
      match lexClassStart rest with
      | none => none
      | some (neg, rs, rest2) => (lexGlobF fuel rest2).map fun ts => GTok.cls neg rs :: ts
    else (lexGlobF fuel rest).map fun ts => GTok.lit c :: ts

/-- The tokenizer with its always-sufficient fuel. -/
def lexGlob (s : Str) : Option (List GTok) :=
  lexGlobF (s.length + 1) s

/-- Whether a character falls in one of the ranges of a character
class. -/
def inRanges (rs : List (Char × Char)) (c : Char) : Bool :=
  rs.any fun r => decide (r.1 ≤ c) && decide (c ≤ r.2)

/-- The matching semantics of Go `path.Match` on a token list: `*`
matches any run of non-separator characters, `?` one non-separator
character, a class one character tested against its ranges (with
negation), and both pattern and name must be exhausted together.
Every recursive call shrinks `ts.length + s.length`, so a fuel of
`ts.length + s.length + 1` always suffices; fuel only makes the
recursion structural (and so kernel-computable). -/
def matchToksF : Nat → List GTok → Str → Bool
  | 0, _, _ => false
  | _ + 1, [], s => s.isEmpty
  | fuel + 1, GTok.star :: ts, s =>
    matchToksF fuel ts s ||
      (match s with
       | [] => false
       | c :: s2 => (c != '/') && matchToksF fuel (GTok.star :: ts) s2)
  | fuel + 1, GTok.qmark :: ts, s =>
    (match s with
     | [] => false
     | c :: s2 => (c != '/') && matchToksF fuel ts s2)
  | fuel + 1, GTok.lit d :: ts, s =>
    (match s with
     | [] => false
     | c :: s2 => (c == d) && matchToksF fuel ts s2)
  | fuel + 1, GTok.cls neg rs :: ts, s =>
    (match s with
     | [] => false
     | c :: s2 => (inRanges rs c != neg) && matchToksF fuel ts s2)

/-- The token matcher with its always-sufficient fuel. -/
def matchToks (ts : List GTok) (s : Str) : Bool :=
  matchToksF (ts.length + s.length + 1) ts s

/-- Model of Go `path.Match(pattern, name)` as used in city.go: `true`
exactly when `Match` returns `(true, nil)`; a pattern rejected with
`ErrBadPattern` yields `false`, exactly as the call site
`if err != nil || !ok { return false }` does. -/
def goPathMatch (p s : Str) : Bool :=
  match lexGlob p with
  | none => false
  | some ts => matchToks ts s

/-- `matchSegments` from city.go: the recursive segment matcher; a
`**` pattern segment matches zero or more whole segments, any other
segment is matched with `path.Match`.  Every recursive call shrinks
`pattern.length + value.length`, so a fuel of
`pattern.length + value.length + 1` always suffices; fuel only makes
the recursion structural (and so kernel-computable). -/
def matchSegmentsF : Nat → List Str → List Str → Bool
  | 0, _, _ => false
  | _ + 1, [], [] => true
  | _ + 1, [], _ :: _ => false
  | fuel + 1, p :: ps, value =>
    if p = ['*', '*'] then
      matchSegmentsF fuel ps value ||
        (match value with
         | [] => false
         | _ :: vs => matchSegmentsF fuel (p :: ps) vs)
    else
      match value with
      | [] => false
      | v :: vs => goPathMatch p v && matchSegmentsF fuel ps vs

/-- The segment matcher with its always-sufficient fuel. -/
def matchSegments (pattern value : List Str) : Bool :=
  matchSegmentsF (pattern.length + value.length + 1) pattern value

/-- `matchGlobPattern` from city.go. -/
def matchGlobPattern (pattern rel : Str) : Bool :=
  matchSegments (splitSegments (goPathClean pattern)) (splitSegments (goPathClean rel))

/-- The stand-in token written by `synthesizePathFromPattern`. -/
def synthSample : Str := ['s', 'a', 'm', 'p', 'l', 'e']

/-- The character loop of `synthesizePathFromPattern` from city.go:
the `Bool` is the `inClass` flag; `*` (coalescing a `**` pair) becomes
the sample token, `?` becomes `x`, a bracket class becomes `x` when it
closes, and everything else is copied. -/
def synthCore : Bool → Str → Str
  | _, [] => []
  | true, c :: rest =>
    if c = ']' then 'x' :: synthCore false rest else synthCore true rest
  | false, c :: rest =>
    if c = '[' then synthCore true rest
    else if c = '*' then
      match rest with
      | [] => synthSample
      | c2 :: rest2 =>
        if c2 = '*' then synthSample ++ synthCore false rest2
        else synthSample ++ synthCore false (c2 :: rest2)
    else if c = '?' then 'x' :: synthCore false rest
    else c :: synthCore false rest

/-- `synthesizePathFromPattern` from city.go. -/
def synthesizePathFromPattern (pattern : Str) : Str :=
  let v0 := synthCore false pattern
  let v1 := if v0 = [] then synthSample else v0
  let v2 := if hasSuffixSlash v1 then v1 ++ synthSample else v1
  goPathClean v2

/-- `normalizePolisPath` from city.go. -/
def normalizePolisPath (p : Str) : Except Str Str :=
  let v := trimSpace (replaceBackslash p)
  if v = [] then Except.error "path cannot be empty".toList
  else if isRooted v then Except.error "path must be relative".toList
  else
    let keepDirMarker := hasSuffixSlash v
    let clean := goPathClean v
    if clean = ['.'] then
      Except.error "path cannot be current directory".toList
    else if clean = ['.', '.'] ∨ hasPrefixDotDotSlash clean = true then
      Except.error "path traversal (..) is not allowed".toList
    else
      Except.ok (if keepDirMarker = true ∧ clean ≠ ['/'] then clean ++ ['/'] else clean)

/-- `normalizeHookPath` from city.go. -/
def normalizeHookPath (p : Str) : Except Str Str :=
  match normalizePolisPath p with
  | Except.error e => Except.error ("invalid hook path: ".toList ++ e)
  | Except.ok clean =>
    if hasSuffixSlash clean then
      Except.error "hook file cannot be a directory path".toList
    else if hasGlobMeta clean then
      Except.error "hook file cannot include glob meta".toList
    else Except.ok clean

/-- Exit codes from city.go. -/
def ExitPass : Nat := 0

def ExitFail : Nat := 1

def ExitWarn : Nat := 2

def ExitInvalid : Nat := 3

/-- Status strings from city.go. -/
def StatusPass : Str := "pass".toList

def StatusFail : Str := "fail".toList

def StatusSkip : Str := "skip".toList

/-- `Hook` from city.go. -/
structure Hook : Type where
  file : Str
  fallback : Str
deriving DecidableEq

/-- `Config` from city.go. -/
structure Config : Type where
  schemaVersion : Nat
  polisFiles : List Str
  standaloneCheck : Str
  hooks : List Hook
deriving DecidableEq

/-- `CheckResult` from city.go; the wall-clock `DurationMs` field is
dropped from the model. -/
structure CheckResult : Type where
  name : Str
  status : Str
  detail : Str
deriving DecidableEq

/-- `Summary` from city.go. -/
structure Summary : Type where
  pass : Nat
  fail : Nat
  skip : Nat
deriving DecidableEq

/-- `Verdict` from city.go (the optional `Bead` field, set only by the
CLI layer, is dropped). -/
structure Verdict : Type where
  pass : Bool
  status : Str
  repo : Str
  checks : List CheckResult
  summary : Summary
  exitCode : Nat
deriving DecidableEq

/-- What `os.Lstat` reports for one path: absent (any error), a
regular file, a directory, a symlink (`ModeSymlink` set, which with
`Lstat` excludes the other kinds), or some other special file. -/
inductive FsEntry : Type
  | missing : FsEntry
  | file : FsEntry
  | dir : FsEntry
  | symlink : FsEntry
  | other : FsEntry
deriving DecidableEq

/-- Model of Go `filepath.Join(a, filepath.FromSlash(b))` on a
slash-separated system, where `FromSlash` is the identity: drop empty
elements, join with a slash, and clean. -/
def goFilepathJoin (a b : Str) : Str :=
  if a = [] then if b = [] then [] else goPathClean b
  else if b = [] then goPathClean a
  else goPathClean (a ++ '/' :: b)

/-- `modeKind` from city.go. -/
def modeKind : FsEntry → Str
  | FsEntry.dir => "directory".toList
  | FsEntry.file => "file".toList
  | FsEntry.symlink => "symlink".toList
  | _ => "non-regular".toList

/-- Model of the compiled `envFallbackRe` regexp
`^[A-Z_][A-Z0-9_]*$` from city.go. -/
def envFallbackMatch (s : Str) : Bool :=
  match s with
  | [] => false
  | c :: rest =>
    (decide (('A' ≤ c ∧ c ≤ 'Z') ∨ c = '_')) &&
      rest.all fun d => decide (('A' ≤ d ∧ d ≤ 'Z') ∨ ('0' ≤ d ∧ d ≤ '9') ∨ d = '_')

/-- Model of Go `fmt` `%q` for the strings at hand: surrounding double
quotes. -/
def goQuote (s : Str) : Str :=
  '"' :: s ++ ['"']

/-- Decimal rendering of a count, as Go `%d`. -/
def natToStr (n : Nat) : Str :=
  (Nat.repr n).toList

/-- The membership test of `checkHooks`: the `polisSet` map holds every
declared path with one trailing slash trimmed, and the hook file is
looked up in it. -/
def polisListed (polisFiles : List Str) (file : Str) : Bool :=
  polisFiles.any fun f => trimSuffixSlash f = file

/-- The problem message recorded by `checkHooks` for a hook file that
is not declared. -/
def hookNotListedMsg (h : Hook) : Str :=
  h.file ++ " not listed in polis_files".toList

/-- The problems recorded by the fallback `switch` of `checkHooks` for
one hook. -/
def hookFallbackProblems (installAt : Str) (fs : Str → FsEntry) (h : Hook) : List Str :=
  if h.fallback = "defaults".toList then []
  else if h.fallback = "fail".toList then
    if installAt = [] then [h.file ++ " fallback=fail requires --install-at".toList]
    else
      match fs (goFilepathJoin installAt h.file) with
      | FsEntry.missing => [h.file ++ " fallback=fail but file missing at install path".toList]
      | FsEntry.symlink => [h.file ++ " fallback=fail but install path is symlink".toList]
      | _ => []
  else if List.isPrefixOf "env:".toList h.fallback then
    if envFallbackMatch (h.fallback.drop 4) then []
    else [h.file ++ " has invalid env fallback ".toList ++ goQuote h.fallback]
  else [h.file ++ " has invalid fallback ".toList ++ goQuote h.fallback]

/-- All problems the `checkHooks` loop records for one hook, in order:
the membership problem, then the fallback problem. -/
def hookProblemsFor (cfg : Config) (installAt : Str) (fs : Str → FsEntry) (h : Hook) : List Str :=
  (if polisListed cfg.polisFiles h.file then [] else [hookNotListedMsg h]) ++
    hookFallbackProblems installAt fs h

/-- `strings.Join(l, "; ")`. -/
def joinSemi (l : List Str) : Str :=
  List.intercalate [';', ' '] l

/-- `checkHooks` from city.go, with the filesystem passed in. -/
def checkHooks (cfg : Config) (installAt : Str) (fs : Str → FsEntry) : Str × Str :=
  if cfg.hooks = [] then (StatusPass, "no hooks declared".toList)
  else
    let problems := cfg.hooks.flatMap (hookProblemsFor cfg installAt fs)
    if problems = [] then
      (StatusPass, natToStr cfg.hooks.length ++ " hooks sound".toList)
    else (StatusFail, joinSemi problems)

/-- The entries the `checkSplit` loop appends to `missing` for one
declared path.  `walk` is the list of slash-converted paths relative to
the install root that `filepath.WalkDir` visits (the `"."` root entry
excluded); a glob entry passes iff some walked path matches it, which
is `hasGlobMatch` without its error path. -/
def splitEntryProblems (installAt : Str) (fs : Str → FsEntry) (walk : List Str)
    (entry : Str) : List Str :=
  if hasGlobMeta entry then
    if walk.any fun rel => matchGlobPattern entry rel then []
    else [entry ++ " missing (glob no matches)".toList]
  else if hasSuffixSlash entry then
    let target := goFilepathJoin installAt (trimSuffixSlash entry)
    match fs target with
    | FsEntry.missing => [entry ++ " missing at ".toList ++ target]
    | FsEntry.symlink => [entry ++ " expected directory but found symlink at ".toList ++ target]
    | FsEntry.dir => []
    | k => [entry ++ " expected directory but found ".toList ++ modeKind k ++ " at ".toList ++ target]
  else
    let target := goFilepathJoin installAt entry
    match fs target with
    | FsEntry.missing => [entry ++ " missing at ".toList ++ target]
    | FsEntry.symlink => [entry ++ " expected file but found symlink at ".toList ++ target]
    | FsEntry.file => []
    | k => [entry ++ " expected file but found ".toList ++ modeKind k ++ " at ".toList ++ target]

/-- `checkSplit` from city.go, with the filesystem and the directory
walk passed in. -/
def checkSplit (polisFiles : List Str) (installAt : Str) (fs : Str → FsEntry)
    (walk : List Str) : Str × Str :=
  if installAt = [] then (StatusSkip, "skipped: --install-at not provided".toList)
  else
    let missing := polisFiles.flatMap (splitEntryProblems installAt fs walk)
    if missing = [] then
      (StatusPass, natToStr polisFiles.length ++ " polis files present at install path".toList)
    else (StatusFail, joinSemi missing)

/-- `summarize` from city.go. -/
def summarize (results : List CheckResult) : Summary :=
  results.foldl
    (fun s r =>
      if r.status = StatusPass then { s with pass := s.pass + 1 }
      else if r.status = StatusFail then { s with fail := s.fail + 1 }
      else if r.status = StatusSkip then { s with skip := s.skip + 1 }
      else s)
    { pass := 0, fail := 0, skip := 0 }

/-- `invalidVerdict` from city.go. -/
def invalidVerdict (repo detail : Str) : Verdict :=
  { pass := false
    status := "fail".toList
    repo := repo
    checks := [{ name := "contract".toList, status := StatusFail, detail := detail }]
    summary := { pass := 0, fail := 1, skip := 0 }
    exitCode := ExitInvalid }

/-- The verdict-assembly tail of `Run` from city.go: summarize the
check results and derive status, pass flag and exit code. -/
def verdictFromChecks (repo : Str) (results : List CheckResult) : Verdict :=
  let summary := summarize results
  if 0 < summary.fail then
    { pass := false, status := "fail".toList, repo := repo, checks := results,
      summary := summary, exitCode := ExitFail }
  else if 0 < summary.skip then
    { pass := false, status := "warn".toList, repo := repo, checks := results,
      summary := summary, exitCode := ExitWarn }
  else
    { pass := true, status := "pass".toList, repo := repo, checks := results,
      summary := summary, exitCode := ExitPass }

/-- Model of `Run` from city.go.  The two validation steps that touch
the outside world are passed in as values: `gitErr` is what
`ensureGitRepo` reports, `loadRes` what `loadConfig` returns.  The four
checks run only in the final branch; they are abstracted as one
function from the loaded config to the list of their `CheckResult`s, so
that the model can express that the invalid short-circuit neither runs
nor depends on them.  (The `filepath.Abs` error branch, an operating
system failure, is not modelled; it produces the same `invalidVerdict`
shape.) -/
def runModel (repoName : Str) (gitErr : Option Str) (loadRes : Except Str Config)
    (checks : Config → List CheckResult) : Verdict :=
  match gitErr with
  | some e => invalidVerdict repoName ("invalid repo input: ".toList ++ e)
  | none =>
    match loadRes with
    | Except.error e => invalidVerdict repoName e
    | Except.ok cfg => verdictFromChecks repoName (checks cfg)

/-- Spec-side definition, written from the spec's words (§3 invariant
(d), §4.8): the exit code as a pure function of the `Summary` alone. -/
def exitCodeOfSummary (s : Summary) : Nat :=
  if 0 < s.fail then ExitFail else if 0 < s.skip then ExitWarn else ExitPass

/-- Shape of the (reversed) accumulator maintained by `cleanSegsRev`:
kept segments first, then a run of `..` segments (none when rooted). -/
def revShape (r : Bool) (acc : List Str) : Prop :=
  ∃ M k, acc = M ++ List.replicate k ['.', '.'] ∧
    ['.', '.'] ∉ M ∧ (∀ t ∈ M, t ≠ [] ∧ t ≠ ['.']) ∧ (r = true → k = 0)

theorem getEsc_length {s : Str} {c : Char} {rest : Str}
    (h : getEsc s = some (c, rest)) : rest.length < s.length := by
  match s with
  | [] => simp [getEsc] at h
  | c1 :: rest1 =>
    simp only [getEsc] at h
    split at h
    · exact absurd h (by simp)
    · split at h
      · match rest1 with
        | [] => exact absurd h (by simp)
        | d :: rest2 =>
          simp only at h
          split at h
          · exact absurd h (by simp)
          · cases h
            simp only [List.length]
            omega
      · split at h
        · exact absurd h (by simp)
        · cases h
          simp

theorem lexRangesF_length {fuel : Nat} {acc : List (Char × Char)} {s : Str}
    {rs : List (Char × Char)} {rest : Str}
    (h : lexRangesF fuel acc s = some (rs, rest)) : rest.length < s.length := by
  induction fuel generalizing acc s with
  | zero => simp [lexRangesF] at h
  | succ fuel ih =>
    rw [lexRangesF] at h
    split at h
    · rename_i hhd
      split at h
      · exact absurd h (by simp)
      · cases h
        match s, hhd with
        | c :: s2, hhd => simp
    · split at h
      · exact absurd h (by simp)
      · rename_i lo s1 hge
        have h1 := getEsc_length hge
        split at h
        · split at h
          · exact absurd h (by simp)
          · rename_i hi s3 hge2
            have h2 := getEsc_length hge2
            have h3 : s1.tail.length ≤ s1.length := by
              cases s1 <;> simp
            have h4 := ih h
            omega
        · have h4 := ih h
          omega

theorem lexClassStart_length {s : Str} {neg : Bool}
    {rs : List (Char × Char)} {rest : Str}
    (h : lexClassStart s = some (neg, rs, rest)) : rest.length < s.length := by
  rw [lexClassStart] at h
  split at h
  · rename_i hhd
    split at h
    · exact absurd h (by simp)
    · rename_i rs2 rest2 hlr
      cases h
      have h1 := lexRangesF_length hlr
      have h2 : s.tail.length ≤ s.length := by cases s <;> simp
      omega
  · split at h
    · exact absurd h (by simp)
    · rename_i rs2 rest2 hlr
      cases h
      exact lexRangesF_length hlr

theorem matchSegmentsF_dstar (value : List Str) : ∀ (fuel : Nat),
    value.length + 1 < fuel → matchSegmentsF fuel [['*', '*']] value = true := by
  induction value with
  | nil =>
    intro fuel hf
    match fuel, hf with
    | f + 2, _ => simp [matchSegmentsF]
  | cons v vs ih =>
    intro fuel hf
    match fuel, hf with
    | f + 1, hf =>
      rw [matchSegmentsF]
      rw [if_pos rfl]
      have h2 : matchSegmentsF f [['*', '*']] vs = true := by
        apply ih
        simp only [List.length_cons] at hf
        omega
      simp [h2]

/-- C7: `matchSegments` with the single pattern segment `**` accepts
every candidate segment list, including the empty one. -/
theorem dstar_matches_everything (value : List Str) :
    matchSegments ["**".toList] value = true := by
  show matchSegmentsF _ [['*', '*']] value = true
  apply matchSegmentsF_dstar
  simp

/-- C5: for any four check results the aggregation in `Run` yields
fail/exit 1 when the fail count is positive, else warn/exit 2 when the
skip count is positive, else pass/exit 0 — and the exit code is the
pure function `exitCodeOfSummary` of the verdict's own summary. -/
theorem verdict_aggregation (repo : Str) (results : List CheckResult)
    (hlen : results.length = 4) :
    (0 < (verdictFromChecks repo results).summary.fail →
      (verdictFromChecks repo results).status = "fail".toList ∧
        (verdictFromChecks repo results).exitCode = ExitFail) ∧
    ((verdictFromChecks repo results).summary.fail = 0 →
      0 < (verdictFromChecks repo results).summary.skip →
      (verdictFromChecks repo results).status = "warn".toList ∧
        (verdictFromChecks repo results).exitCode = ExitWarn) ∧
    ((verdictFromChecks repo results).summary.fail = 0 →
      (verdictFromChecks repo results).summary.skip = 0 →
      (verdictFromChecks repo results).status = "pass".toList ∧
        (verdictFromChecks repo results).exitCode = ExitPass) ∧
    (verdictFromChecks repo results).summary = summarize results ∧
    (verdictFromChecks repo results).exitCode =
      exitCodeOfSummary (verdictFromChecks repo results).summary := by
  unfold verdictFromChecks exitCodeOfSummary
  by_cases h1 : 0 < (summarize results).fail
  · simp [h1]
    omega
  · by_cases h2 : 0 < (summarize results).skip <;> simp [h1, h2] <;> omega

/-- Witness for `verdict_aggregation` at a concrete four-element
result list. -/
theorem verdict_aggregation_witness :
    ([ CheckResult.mk "boundary".toList StatusPass [],
       CheckResult.mk "standalone".toList StatusSkip [],
       CheckResult.mk "config-hooks".toList StatusPass [],
       CheckResult.mk "split".toList StatusSkip [] ] : List CheckResult).length = 4 ∧
    (verdictFromChecks "r".toList
      [ CheckResult.mk "boundary".toList StatusPass [],
        CheckResult.mk "standalone".toList StatusSkip [],
        CheckResult.mk "config-hooks".toList StatusPass [],
        CheckResult.mk "split".toList StatusSkip [] ]).summary = summarize
      [ CheckResult.mk "boundary".toList StatusPass [],
        CheckResult.mk "standalone".toList StatusSkip [],
        CheckResult.mk "config-hooks".toList StatusPass [],
        CheckResult.mk "split".toList StatusSkip [] ] :=
  ⟨by decide, (verdict_aggregation "r".toList _ (by decide)).2.2.2.1⟩

/-- C6: when the input is not a git repository or the contract fails to
load, `Run` returns the terminal invalid verdict — a single synthetic
`contract` check result and the distinct exit code 3 — and the result
neither runs nor depends on the four checks. -/
theorem invalid_short_circuit (repoName : Str) (gitErr : Option Str)
    (loadRes : Except Str Config) (checks checks2 : Config → List CheckResult)
    (hbad : (∃ e, gitErr = some e) ∨ ∃ e, loadRes = Except.error e) :
    runModel repoName gitErr loadRes checks = runModel repoName gitErr loadRes checks2 ∧
    (runModel repoName gitErr loadRes checks).exitCode = ExitInvalid ∧
    (runModel repoName gitErr loadRes checks).checks.length = 1 ∧
    (runModel repoName gitErr loadRes checks).checks.map CheckResult.name =
      ["contract".toList] ∧
    (runModel repoName gitErr loadRes checks).status = "fail".toList ∧
    (runModel repoName gitErr loadRes checks).pass = false := by
  match gitErr with
  | some e => simp [runModel, invalidVerdict, ExitInvalid]
  | none =>
    match loadRes with
    | Except.error e => simp [runModel, invalidVerdict, ExitInvalid]
    | Except.ok cfg =>
      rcases hbad with ⟨e, he⟩ | ⟨e, he⟩ <;> exact absurd he (by simp)

/-- Witness for `invalid_short_circuit`: a failing contract load. -/
theorem invalid_short_circuit_witness :
    (runModel "r".toList none (Except.error "invalid city.toml: no file".toList)
        (fun _ => [])).exitCode = ExitInvalid :=
  (invalid_short_circuit "r".toList none (Except.error "invalid city.toml: no file".toList)
    (fun _ => []) (fun _ => [⟨[], [], []⟩])
    (Or.inr ⟨"invalid city.toml: no file".toList, rfl⟩)).2.1

/-- C10: every verdict `Run` returns, the invalid short-circuit
included, has `pass = true` exactly when its status is `pass` and
exactly when its exit code is 0; a warn verdict in particular has
`pass = false`. -/
theorem pass_iff_status_iff_exit (repoName : Str) (gitErr : Option Str)
    (loadRes : Except Str Config) (checks : Config → List CheckResult) :
    ((runModel repoName gitErr loadRes checks).pass = true ↔
      (runModel repoName gitErr loadRes checks).status = "pass".toList) ∧
    ((runModel repoName gitErr loadRes checks).pass = true ↔
      (runModel repoName gitErr loadRes checks).exitCode = ExitPass) := by
  match gitErr with
  | some e => simp [runModel, invalidVerdict, ExitPass, ExitInvalid]
  | none =>
    match loadRes with
    | Except.error e => simp [runModel, invalidVerdict, ExitPass, ExitInvalid]
    | Except.ok cfg =>
      simp only [runModel, verdictFromChecks]
      by_cases h1 : 0 < (summarize (checks cfg)).fail
      · simp [h1, ExitPass, ExitFail]
      · by_cases h2 : 0 < (summarize (checks cfg)).skip <;>
          simp [h1, h2, ExitPass, ExitFail, ExitWarn]

/-- C1 counterexample: `a/b/../../secret` contains `..` segments, yet
normalization succeeds — path.Clean cancels both `..`s against `a/b`
and the traversal check, made on the cleaned form, no longer sees
them. -/
theorem embedded_traversal_accepted :
    normalizePolisPath "a/b/../../secret".toList = Except.ok "secret".toList := by
  decide

/-- C1 (amended): normalization rejects exactly the traversals that
survive cleaning: whenever the cleaned form of the trimmed,
slash-normalized input equals `..` or starts with `../`,
`normalizePolisPath` returns an error. -/
theorem escaping_traversal_rejected (p : Str)
    (h : goPathClean (trimSpace (replaceBackslash p)) = ['.', '.'] ∨
      hasPrefixDotDotSlash (goPathClean (trimSpace (replaceBackslash p))) = true) :
    ∃ e, normalizePolisPath p = Except.error e := by
  simp only [normalizePolisPath]
  split_ifs with h1 h2 h3 h4
  all_goals first | exact ⟨_, rfl⟩ | exact absurd h h4

/-- Witness for `escaping_traversal_rejected` at `../x`. -/
theorem escaping_traversal_rejected_witness :
    (goPathClean (trimSpace (replaceBackslash "../x".toList)) = ['.', '.'] ∨
      hasPrefixDotDotSlash (goPathClean (trimSpace (replaceBackslash "../x".toList))) = true) ∧
    ∃ e, normalizePolisPath "../x".toList = Except.error e :=
  ⟨by decide, escaping_traversal_rejected "../x".toList (by decide)⟩

theorem intercalate_cons2 (sep a b : Str) (l : List Str) :
    List.intercalate sep (a :: b :: l) = a ++ sep ++ List.intercalate sep (b :: l) := by
  simp [List.intercalate, List.intersperse_cons_cons]

theorem intercalate_single (sep a : Str) : List.intercalate sep [a] = a := by
  simp [List.intercalate]

theorem infix_intercalate {msg : Str} (sep : Str) {l : List Str} (h : msg ∈ l) :
    msg <:+: List.intercalate sep l := by
  induction l with
  | nil => simp at h
  | cons a l2 ih =>
    match l2 with
    | [] =>
      have : msg = a := by simpa using h
      rw [this, intercalate_single]
    | b :: l3 =>
      rcases List.mem_cons.mp h with h | h
      · exact ⟨[], sep ++ List.intercalate sep (b :: l3), by
          rw [intercalate_cons2, h]
          simp [List.append_assoc]⟩
      · obtain ⟨s, t, hst⟩ := ih h
        exact ⟨a ++ sep ++ s, t, by
          rw [intercalate_cons2, ← hst]
          simp [List.append_assoc]⟩

theorem checkHooks_problem_fail (cfg : Config) (installAt : Str) (fs : Str → FsEntry)
    {hk : Hook} {msg : Str} (hmem : hk ∈ cfg.hooks)
    (hp : msg ∈ hookProblemsFor cfg installAt fs hk) :
    (checkHooks cfg installAt fs).1 = StatusFail ∧
      msg <:+: (checkHooks cfg installAt fs).2 := by
  have hne : cfg.hooks ≠ [] := List.ne_nil_of_mem hmem
  have hmp : msg ∈ cfg.hooks.flatMap (hookProblemsFor cfg installAt fs) :=
    List.mem_flatMap.mpr ⟨hk, hmem, hp⟩
  have hpne : cfg.hooks.flatMap (hookProblemsFor cfg installAt fs) ≠ [] :=
    List.ne_nil_of_mem hmp
  simp only [checkHooks]
  rw [if_neg hne, if_neg hpne]
  exact ⟨rfl, infix_intercalate _ hmp⟩

/-- C2 counterexample: a hook with `fallback = "fail"` and an install
location whose entry is a directory (not a regular file, not a
symlink) still passes the config-hooks check — the code never tests
regularity. -/
theorem hook_fail_fallback_dir_passes :
    checkHooks
      { schemaVersion := 1, polisFiles := [".secrets".toList], standaloneCheck := [],
        hooks := [{ file := ".secrets".toList, fallback := "fail".toList }] }
      "/i".toList (fun _ => FsEntry.dir) = (StatusPass, "1 hooks sound".toList) := by
  decide

/-- C2 (amended): for a hook with fallback `fail`, when an install
location is supplied the fallback check passes exactly when the file
exists there and is not a symlink (its being a regular file is not
required); with no install location the check fails asking for one. -/
theorem hook_fail_fallback_requires_presence (cfg : Config) (installAt : Str)
    (fs : Str → FsEntry) (hk : Hook) (hmem : hk ∈ cfg.hooks)
    (hfb : hk.fallback = "fail".toList) :
    (installAt = [] →
      (checkHooks cfg installAt fs).1 = StatusFail ∧
        (hk.file ++ " fallback=fail requires --install-at".toList) <:+:
          (checkHooks cfg installAt fs).2) ∧
    (installAt ≠ [] →
      (hookFallbackProblems installAt fs hk = [] ↔
        (fs (goFilepathJoin installAt hk.file) ≠ FsEntry.missing ∧
          fs (goFilepathJoin installAt hk.file) ≠ FsEntry.symlink)) ∧
      ((fs (goFilepathJoin installAt hk.file) = FsEntry.missing ∨
          fs (goFilepathJoin installAt hk.file) = FsEntry.symlink) →
        (checkHooks cfg installAt fs).1 = StatusFail)) := by
  have hnd : hk.fallback ≠ "defaults".toList := by rw [hfb]; decide
  constructor
  · intro hA
    apply checkHooks_problem_fail cfg installAt fs hmem
    simp only [hookProblemsFor, hookFallbackProblems, hnd, hfb, if_neg, if_pos, hA]
    simp
  · intro hA
    constructor
    · simp only [hookFallbackProblems, hfb, if_neg hnd, if_pos rfl, if_neg hA]
      match hfs : fs (goFilepathJoin installAt hk.file) with
      | FsEntry.missing => simp
      | FsEntry.symlink => simp
      | FsEntry.file => simp
      | FsEntry.dir => simp
      | FsEntry.other => simp
    · intro hbad
      have hp : (match fs (goFilepathJoin installAt hk.file) with
          | FsEntry.missing => [hk.file ++ " fallback=fail but file missing at install path".toList]
          | FsEntry.symlink => [hk.file ++ " fallback=fail but install path is symlink".toList]
          | _ => ([] : List Str)) ≠ [] := by
        rcases hbad with hb | hb <;> rw [hb] <;> simp
      match hms : (match fs (goFilepathJoin installAt hk.file) with
          | FsEntry.missing => [hk.file ++ " fallback=fail but file missing at install path".toList]
          | FsEntry.symlink => [hk.file ++ " fallback=fail but install path is symlink".toList]
          | _ => ([] : List Str)), hp with
      | msg :: _, _ =>
        refine (@checkHooks_problem_fail cfg installAt fs hk msg hmem ?_).1
        simp only [hookProblemsFor, hookFallbackProblems, hfb, if_neg hnd, if_pos rfl,
          if_neg hA, hms]
        simp

/-- Witness for `hook_fail_fallback_requires_presence`: one declared
hook with fallback `fail` whose install-location entry is absent. -/
theorem hook_fail_fallback_requires_presence_witness :
    ({ file := "cfg.yaml".toList, fallback := "fail".toList } : Hook) ∈
      ({ schemaVersion := 1, polisFiles := ["cfg.yaml".toList], standaloneCheck := [],
         hooks := [{ file := "cfg.yaml".toList, fallback := "fail".toList }] } : Config).hooks ∧
    (checkHooks
      { schemaVersion := 1, polisFiles := ["cfg.yaml".toList], standaloneCheck := [],
        hooks := [{ file := "cfg.yaml".toList, fallback := "fail".toList }] }
      "/i".toList (fun _ => FsEntry.missing)).1 = StatusFail :=
  ⟨by decide,
    ((hook_fail_fallback_requires_presence _ "/i".toList (fun _ => FsEntry.missing)
        { file := "cfg.yaml".toList, fallback := "fail".toList }
        (by decide) rfl).2 (by decide)).2 (Or.inl rfl)⟩

theorem notListedMsg_not_fallback (installAt : Str) (fs : Str → FsEntry) (hk : Hook) :
    hookNotListedMsg hk ∉ hookFallbackProblems installAt fs hk := by
  intro hmem
  simp only [hookFallbackProblems, hookNotListedMsg] at hmem
  split_ifs at hmem <;>
    first
    | (split at hmem <;>
        first
        | simp at hmem
        | (simp only [List.mem_singleton] at hmem
           have h6 := List.append_cancel_left hmem
           exact absurd h6 (by decide)))
    | (simp only [List.mem_singleton] at hmem
       have h6 := List.append_cancel_left hmem
       first
       | exact absurd h6 (by decide)
       | (have h7 := congrArg (fun l => l.tail.head?) h6
          simp at h7))
    | simp at hmem

/-- C8: a hook satisfies the config-hooks membership condition exactly
when its file equals some declared path with one trailing separator
trimmed (so a directory-style entry satisfies a hook naming the bare
name); a hook with no such declared path makes the check fail, and the
detail lists that file. -/
theorem hook_membership (cfg : Config) (installAt : Str) (fs : Str → FsEntry)
    (hk : Hook) (hmem : hk ∈ cfg.hooks) :
    ((∃ f ∈ cfg.polisFiles, trimSuffixSlash f = hk.file) ↔
      hookNotListedMsg hk ∉ hookProblemsFor cfg installAt fs hk) ∧
    ((¬∃ f ∈ cfg.polisFiles, trimSuffixSlash f = hk.file) →
      (checkHooks cfg installAt fs).1 = StatusFail ∧
        hookNotListedMsg hk <:+: (checkHooks cfg installAt fs).2) := by
  have hlist : polisListed cfg.polisFiles hk.file = true ↔
      ∃ f ∈ cfg.polisFiles, trimSuffixSlash f = hk.file := by
    simp [polisListed]
  constructor
  · constructor
    · intro hex
      simp only [hookProblemsFor, if_pos (hlist.mpr hex), List.nil_append]
      exact notListedMsg_not_fallback installAt fs hk
    · intro hnotin
      by_contra hnex
      apply hnotin
      have hfalse : polisListed cfg.polisFiles hk.file = false := by
        rcases hb : polisListed cfg.polisFiles hk.file with _ | _
        · rfl
        · exact absurd (hlist.mp hb) hnex
      simp [hookProblemsFor, hfalse]
  · intro hnex
    apply checkHooks_problem_fail cfg installAt fs hmem
    have hfalse : polisListed cfg.polisFiles hk.file = false := by
      rcases hb : polisListed cfg.polisFiles hk.file with _ | _
      · rfl
      · exact absurd (hlist.mp hb) hnex
    simp [hookProblemsFor, hfalse]

/-- Witness for `hook_membership`: a directory-style declared entry
`conf/` satisfies a hook naming `conf`, while a hook naming `other`
satisfies nothing. -/
theorem hook_membership_witness :
    (∃ f ∈ (["conf/".toList] : List Str), trimSuffixSlash f = "conf".toList) ∧
    hookNotListedMsg ⟨"conf".toList, "defaults".toList⟩ ∉
      hookProblemsFor ⟨1, ["conf/".toList], [], [⟨"conf".toList, "defaults".toList⟩]⟩
        [] (fun _ => FsEntry.missing) ⟨"conf".toList, "defaults".toList⟩ :=
  ⟨⟨"conf/".toList, by decide, by decide⟩,
    (hook_membership ⟨1, ["conf/".toList], [], [⟨"conf".toList, "defaults".toList⟩]⟩
        [] (fun _ => FsEntry.missing) ⟨"conf".toList, "defaults".toList⟩ (by decide)).1.mp
      ⟨"conf/".toList, by decide, by decide⟩⟩

theorem checkSplit_problem_fail (polisFiles : List Str) (installAt : Str)
    (fs : Str → FsEntry) (walk : List Str) {entry msg : Str}
    (hmem : entry ∈ polisFiles) (hA : installAt ≠ [])
    (hp : msg ∈ splitEntryProblems installAt fs walk entry) :
    (checkSplit polisFiles installAt fs walk).1 = StatusFail ∧
      msg <:+: (checkSplit polisFiles installAt fs walk).2 := by
  have hmp : msg ∈ polisFiles.flatMap (splitEntryProblems installAt fs walk) :=
    List.mem_flatMap.mpr ⟨entry, hmem, hp⟩
  have hpne : polisFiles.flatMap (splitEntryProblems installAt fs walk) ≠ [] :=
    List.ne_nil_of_mem hmp
  simp only [checkSplit]
  rw [if_neg hA, if_neg hpne]
  exact ⟨rfl, infix_intercalate _ hmp⟩

/-- C4: in the split check a symlink never satisfies presence: a
declared file entry whose install-location target is a symlink fails
the check, with a recorded message naming the declared kind (`file`)
and the discovered kind (`symlink`); the same refusal holds for a
declared directory entry. -/
theorem split_symlink_never_satisfies (polisFiles : List Str) (installAt : Str)
    (fs : Str → FsEntry) (walk : List Str) (entry : Str)
    (hmem : entry ∈ polisFiles) (hA : installAt ≠ [])
    (hnglob : hasGlobMeta entry = false) :
    (hasSuffixSlash entry = false →
      fs (goFilepathJoin installAt entry) = FsEntry.symlink →
      splitEntryProblems installAt fs walk entry =
        [entry ++ " expected file but found symlink at ".toList ++
          goFilepathJoin installAt entry] ∧
      (checkSplit polisFiles installAt fs walk).1 = StatusFail ∧
      (entry ++ " expected file but found symlink at ".toList ++
          goFilepathJoin installAt entry) <:+:
        (checkSplit polisFiles installAt fs walk).2) ∧
    (hasSuffixSlash entry = true →
      fs (goFilepathJoin installAt (trimSuffixSlash entry)) = FsEntry.symlink →
      splitEntryProblems installAt fs walk entry =
        [entry ++ " expected directory but found symlink at ".toList ++
          goFilepathJoin installAt (trimSuffixSlash entry)] ∧
      (checkSplit polisFiles installAt fs walk).1 = StatusFail ∧
      (entry ++ " expected directory but found symlink at ".toList ++
          goFilepathJoin installAt (trimSuffixSlash entry)) <:+:
        (checkSplit polisFiles installAt fs walk).2) := by
  constructor
  · intro hnd hsym
    have hent : splitEntryProblems installAt fs walk entry =
        [entry ++ " expected file but found symlink at ".toList ++
          goFilepathJoin installAt entry] := by
      simp only [splitEntryProblems, hnglob, hnd, hsym]
      simp
    refine ⟨hent, checkSplit_problem_fail polisFiles installAt fs walk hmem hA ?_⟩
    rw [hent]
    simp
  · intro hd hsym
    have hent : splitEntryProblems installAt fs walk entry =
        [entry ++ " expected directory but found symlink at ".toList ++
          goFilepathJoin installAt (trimSuffixSlash entry)] := by
      simp only [splitEntryProblems, hnglob, hd, hsym]
      simp
    refine ⟨hent, checkSplit_problem_fail polisFiles installAt fs walk hmem hA ?_⟩
    rw [hent]
    simp

/-- Witness for `split_symlink_never_satisfies`: a declared file
`cfg.yaml` whose target is a symlink. -/
theorem split_symlink_never_satisfies_witness :
    (checkSplit ["cfg.yaml".toList] "/i".toList (fun _ => FsEntry.symlink) []).1 =
      StatusFail :=
  (((split_symlink_never_satisfies ["cfg.yaml".toList] "/i".toList
      (fun _ => FsEntry.symlink) [] "cfg.yaml".toList (by decide) (by decide)
      (by decide)).1 (by decide) rfl).2).1

theorem splitSlash_ne_nil (s : Str) : splitSlash s ≠ [] :=
  List.splitOnP_ne_nil _ s

theorem splitSlash_nil : splitSlash [] = [[]] := rfl

theorem splitSlash_cons (c : Char) (s : Str) :
    splitSlash (c :: s) =
      if c = '/' then [] :: splitSlash s
      else (splitSlash s).modifyHead (List.cons c) := by
  simp only [splitSlash, List.splitOn, List.splitOnP_cons]
  by_cases h : c = '/' <;> simp [h]

theorem mem_splitSlash_no_slash {t : Str} {s : Str} (h : t ∈ splitSlash s) :
    '/' ∉ t := by
  induction s generalizing t with
  | nil =>
    rw [splitSlash_nil] at h
    simp at h
    simp [h]
  | cons c s2 ih =>
    rw [splitSlash_cons] at h
    split_ifs at h with hc
    · rcases List.mem_cons.mp h with h | h
      · simp [h]
      · exact ih h
    · have hnn := splitSlash_ne_nil s2
      match hs : splitSlash s2 with
      | [] => exact absurd hs hnn
      | t0 :: ts =>
        rw [hs] at h
        simp only [List.modifyHead] at h
        rcases List.mem_cons.mp h with h | h
        · have h0 : '/' ∉ t0 := ih (hs ▸ List.mem_cons_self t0 ts)
          rw [h]
          intro hmem
          rcases List.mem_cons.mp hmem with hh | hh
          · exact hc hh.symm
          · exact h0 hh
        · exact ih (hs ▸ List.mem_cons_of_mem t0 h)

theorem mem_splitSlash_chars {t : Str} {s : Str} (ht : t ∈ splitSlash s)
    {c : Char} (hc : c ∈ t) : c ∈ s := by
  induction s generalizing t with
  | nil =>
    rw [splitSlash_nil] at ht
    simp at ht
    rw [ht] at hc
    simp at hc
  | cons c1 s2 ih =>
    rw [splitSlash_cons] at ht
    split_ifs at ht with h1
    · rcases List.mem_cons.mp ht with h | h
      · rw [h] at hc; simp at hc
      · exact List.mem_cons_of_mem _ (ih h hc)
    · have hnn := splitSlash_ne_nil s2
      match hs : splitSlash s2 with
      | [] => exact absurd hs hnn
      | t0 :: ts =>
        rw [hs] at ht
        simp only [List.modifyHead] at ht
        rcases List.mem_cons.mp ht with h | h
        · rw [h] at hc
          rcases List.mem_cons.mp hc with hh | hh
          · rw [hh]; exact List.mem_cons_self c1 s2
          · exact List.mem_cons_of_mem _ (ih (hs ▸ List.mem_cons_self t0 ts) hh)
        · exact List.mem_cons_of_mem _ (ih (hs ▸ List.mem_cons_of_mem t0 h) hc)

theorem splitSlash_intercalate {L : List Str} (hne : L ≠ [])
    (hns : ∀ t ∈ L, '/' ∉ t) :
    splitSlash (List.intercalate ['/'] L) = L :=
  List.splitOn_intercalate L '/' hns hne

theorem revShape_nil (r : Bool) : revShape r [] :=
  ⟨[], 0, by simp, by simp, by simp, fun _ => rfl⟩

theorem revShape_step {r : Bool} {acc : List Str} (h : revShape r acc) (l : List Str) :
    revShape r (cleanSegsRev r acc l) := by
  induction l generalizing acc with
  | nil => simpa [cleanSegsRev] using h
  | cons s rest ih =>
    obtain ⟨M, k, hacc, hdd, hM, hrk⟩ := h
    rw [cleanSegsRev]
    split_ifs with h1 h2 h3 h4 h5
    · exact ih ⟨M, k, hacc, hdd, hM, hrk⟩
    · exact ih (revShape_nil r)
    · refine ih ⟨[], 1, by rw [h2]; simp, by simp, by simp, fun hc => absurd hc h4⟩
    · -- the accumulator ends in `..`: it is a pure `..` run
      have hMnil : M = [] := by
        match M, hacc with
        | [], _ => rfl
        | m0 :: M2, hacc =>
          rw [hacc] at h5
          simp only [List.cons_append, List.head?_cons, Option.some.injEq] at h5
          exact absurd h5 (by intro hc; exact hdd (hc ▸ List.mem_cons_self m0 M2))
      rw [hMnil, List.nil_append] at hacc
      have hk : k ≠ 0 := by
        intro hc
        rw [hc] at hacc
        simp at hacc
        exact h3 hacc
      have hrf : ¬r = true := fun hc => hk (hrk hc)
      refine ih ⟨[], k + 1, ?_, by simp, by simp, fun hc => absurd hc hrf⟩
      rw [hacc, h2]
      simp [List.replicate_succ]
    · -- pop: the accumulator ends in a kept segment
      match M, hacc with
      | [], hacc =>
        exfalso
        apply h5
        match k, hacc with
        | 0, hacc =>
          simp only [List.replicate_zero, List.nil_append] at hacc
          exact absurd hacc h3
        | k2 + 1, hacc =>
          rw [hacc]
          simp [List.replicate_succ]
      | m0 :: M2, hacc =>
        rw [hacc]
        simp only [List.cons_append, List.tail_cons]
        exact ih ⟨M2, k, rfl, fun hm => hdd (List.mem_cons_of_mem _ hm),
          fun t ht => hM t (List.mem_cons_of_mem _ ht), hrk⟩
    · -- push a kept segment
      refine ih ⟨s :: M, k, by rw [hacc]; rfl, ?_, ?_, hrk⟩
      · intro hc
        rcases List.mem_cons.mp hc with hc | hc
        · exact h2 hc.symm
        · exact hdd hc
      · intro t ht
        rcases List.mem_cons.mp ht with ht | ht
        · rw [ht]
          constructor <;> intro hc <;> exact h1 (by rw [hc]; simp)
        · exact hM t ht

theorem cleanSegsRev_dd_run (k : Nat) : ∀ (j : Nat) (rest : List Str),
    cleanSegsRev false (List.replicate j ['.', '.']) (List.replicate k ['.', '.'] ++ rest) =
      cleanSegsRev false (List.replicate (j + k) ['.', '.']) rest := by
  induction k with
  | zero => intro j rest; simp
  | succ k2 ih =>
    intro j rest
    rw [List.replicate_succ, List.cons_append, cleanSegsRev]
    rw [if_neg (by decide), if_pos rfl]
    match j with
    | 0 =>
      rw [show List.replicate 0 (['.', '.'] : Str) = [] from rfl]
      rw [if_pos rfl, if_neg (by decide)]
      rw [show ([['.', '.']] : List Str) = List.replicate 1 ['.', '.'] from rfl, ih 1 rest]
      have he : 1 + k2 = 0 + (k2 + 1) := by omega
      rw [he]
    | j2 + 1 =>
      rw [if_neg (by simp [List.replicate_succ]), if_pos (by simp [List.replicate_succ])]
      have h1 : ['.', '.'] :: List.replicate (j2 + 1) ['.', '.'] =
          List.replicate (j2 + 2) ['.', '.'] := by simp [List.replicate_succ]
      rw [h1, ih (j2 + 2) rest]
      have he : j2 + 2 + k2 = j2 + 1 + (k2 + 1) := by omega
      rw [he]

theorem cleanSegsRev_keep_run (M : List Str)
    (hM : ∀ t ∈ M, t ≠ [] ∧ t ≠ ['.'] ∧ t ≠ ['.', '.']) :
    ∀ (r : Bool) (acc : List Str), cleanSegsRev r acc M = M.reverse ++ acc := by
  induction M with
  | nil => intro r acc; simp [cleanSegsRev]
  | cons m0 M2 ih =>
    intro r acc
    obtain ⟨hm1, hm2, hm3⟩ := hM m0 (List.mem_cons_self m0 M2)
    rw [cleanSegsRev, if_neg (by simp [hm1, hm2]), if_neg hm3,
      ih (fun t ht => hM t (List.mem_cons_of_mem m0 ht)) r (m0 :: acc)]
    simp

theorem cleanSegs_shaped_id (r : Bool) (k : Nat) (M : List Str)
    (hdd : ['.', '.'] ∉ M) (hM : ∀ t ∈ M, t ≠ [] ∧ t ≠ ['.'])
    (hrk : r = true → k = 0) :
    cleanSegs r (List.replicate k ['.', '.'] ++ M) =
      List.replicate k ['.', '.'] ++ M := by
  have hM3 : ∀ t ∈ M, t ≠ [] ∧ t ≠ ['.'] ∧ t ≠ ['.', '.'] := by
    intro t ht
    exact ⟨(hM t ht).1, (hM t ht).2, fun hc => hdd (hc ▸ ht)⟩
  match r with
  | true =>
    rw [hrk rfl]
    simp only [List.replicate_zero, List.nil_append, cleanSegs]
    rw [cleanSegsRev_keep_run M hM3 true []]
    simp
  | false =>
    simp only [cleanSegs]
    have h0 := cleanSegsRev_dd_run k 0 M
    simp only [List.replicate_zero, Nat.zero_add] at h0
    rw [h0, cleanSegsRev_keep_run M hM3 false (List.replicate k ['.', '.'])]
    simp

theorem mem_cleanSegsRev {r : Bool} {acc l : List Str} {t : Str}
    (h : t ∈ cleanSegsRev r acc l) : t ∈ acc ∨ t = ['.', '.'] ∨ t ∈ l := by
  induction l generalizing acc with
  | nil => exact Or.inl (by simpa [cleanSegsRev] using h)
  | cons s rest ih =>
    rw [cleanSegsRev] at h
    split_ifs at h with h1 h2 h3 h4
    · rcases ih h with h | h | h
      exacts [Or.inl h, Or.inr (Or.inl h), Or.inr (Or.inr (List.mem_cons_of_mem s h))]
    · rcases ih h with h | h | h
      exacts [absurd h (by simp), Or.inr (Or.inl h), Or.inr (Or.inr (List.mem_cons_of_mem s h))]
    · rcases ih h with h | h | h
      · rcases List.mem_cons.mp h with h | h
        · exact Or.inr (Or.inl (h.trans h2))
        · simp at h
      · exact Or.inr (Or.inl h)
      · exact Or.inr (Or.inr (List.mem_cons_of_mem s h))
    · rcases ih h with h | h | h
      · rcases List.mem_cons.mp h with h | h
        · exact Or.inr (Or.inl (h.trans h2))
        · exact Or.inl h
      · exact Or.inr (Or.inl h)
      · exact Or.inr (Or.inr (List.mem_cons_of_mem s h))
    · rcases ih h with h | h | h
      exacts [Or.inl (List.mem_of_mem_tail h), Or.inr (Or.inl h),
        Or.inr (Or.inr (List.mem_cons_of_mem s h))]
    · rcases ih h with h | h | h
      · rcases List.mem_cons.mp h with h | h
        · exact Or.inr (Or.inr (h ▸ List.mem_cons_self s rest))
        · exact Or.inl h
      · exact Or.inr (Or.inl h)
      · exact Or.inr (Or.inr (List.mem_cons_of_mem s h))

theorem mem_cleanSegs {r : Bool} {l : List Str} {t : Str}
    (h : t ∈ cleanSegs r l) : t = ['.', '.'] ∨ t ∈ l := by
  have h2 : t ∈ cleanSegsRev r [] l := by
    simpa [cleanSegs] using h
  rcases mem_cleanSegsRev h2 with h | h | h
  · simp at h
  · exact Or.inl h
  · exact Or.inr h

theorem cleanSegs_shape (r : Bool) (l : List Str) :
    ∃ k M, cleanSegs r l = List.replicate k ['.', '.'] ++ M ∧
      ['.', '.'] ∉ M ∧ (∀ t ∈ M, t ≠ [] ∧ t ≠ ['.']) ∧ (r = true → k = 0) := by
  obtain ⟨M, k, hacc, hdd, hM, hrk⟩ := revShape_step (revShape_nil r) l
  refine ⟨k, M.reverse, ?_, by simpa using hdd, fun t ht => hM t (by simpa using ht), hrk⟩
  rw [cleanSegs, hacc]
  simp

theorem mem_cleanSegs_keep {r : Bool} {l : List Str} {t : Str}
    (h : t ∈ cleanSegs r l) : t ≠ [] ∧ t ≠ ['.'] := by
  obtain ⟨k, M, heq, hdd, hM, hrk⟩ := cleanSegs_shape r l
  rw [heq] at h
  rcases List.mem_append.mp h with h | h
  · have := List.eq_of_mem_replicate h
    rw [this]
    constructor <;> decide
  · exact hM t h

theorem intercalate_ne_nil {a : Str} (rest : List Str) (ha : a ≠ []) :
    List.intercalate ['/'] (a :: rest) ≠ [] := by
  match rest with
  | [] => rw [intercalate_single]; exact ha
  | b :: l =>
    rw [intercalate_cons2]
    intro hc
    rw [List.append_assoc] at hc
    exact ha (List.append_eq_nil.mp hc).1

theorem intercalate_head? {a : Str} (rest : List Str) (ha : a ≠ []) :
    (List.intercalate ['/'] (a :: rest)).head? = a.head? := by
  match rest with
  | [] => rw [intercalate_single]
  | b :: l =>
    rw [intercalate_cons2, List.append_assoc]
    exact List.head?_append_of_ne_nil a ha

theorem intercalate_getLast2 (L : List Str) (t : Str) (ht : t ≠ [])
    (h : ∀ s ∈ L, s ≠ []) :
    (List.intercalate ['/'] (L ++ [t])).getLast? = t.getLast? := by
  induction L with
  | nil => rw [List.nil_append, intercalate_single]
  | cons a L2 ih =>
    match hbl : L2 ++ [t] with
    | [] => exact absurd hbl (by simp)
    | b :: l =>
      have hb : b ≠ [] := by
        have hbm : b ∈ L2 ++ [t] := hbl ▸ List.mem_cons_self b l
        rcases List.mem_append.mp hbm with hbm | hbm
        · exact (h b (List.mem_cons_of_mem a hbm))
        · simp only [List.mem_singleton] at hbm
          exact hbm ▸ ht
      rw [List.cons_append, hbl, intercalate_cons2,
        List.getLast?_append_of_ne_nil _ (intercalate_ne_nil l hb), ← hbl,
        ih (fun s hs => h s (List.mem_cons_of_mem a hs))]

theorem intercalate_chars {c : Char} {L : List Str}
    (h : c ∈ List.intercalate ['/'] L) : c = '/' ∨ ∃ t ∈ L, c ∈ t := by
  induction L with
  | nil => simp [List.intercalate] at h
  | cons a rest ih =>
    match rest with
    | [] =>
      rw [intercalate_single] at h
      exact Or.inr ⟨a, by simp, h⟩
    | b :: l =>
      rw [intercalate_cons2] at h
      rcases List.mem_append.mp h with h | h
      · rcases List.mem_append.mp h with h | h
        · exact Or.inr ⟨a, by simp, h⟩
        · simp at h
          exact Or.inl h
      · rcases ih h with h | ⟨t, ht, hc⟩
        · exact Or.inl h
        · exact Or.inr ⟨t, List.mem_cons_of_mem a ht, hc⟩

theorem cleanSegs_no_slash {s : Str} {t : Str}
    (h : t ∈ cleanSegs (isRooted s) (splitSlash s)) : '/' ∉ t := by
  rcases mem_cleanSegs h with h | h
  · rw [h]; decide
  · exact mem_splitSlash_no_slash h

/-- The bridge between the two segment views used by city.go: applying
its `splitSegments` to the output of `path.Clean` gives exactly the
cleaned segment list. -/
theorem splitSegments_goPathClean (s : Str) :
    splitSegments (goPathClean s) = cleanSegs (isRooted s) (splitSlash s) := by
  simp only [goPathClean]
  have hkeep : ∀ t ∈ cleanSegs (isRooted s) (splitSlash s), t ≠ [] ∧ t ≠ ['.'] :=
    fun t ht => mem_cleanSegs_keep ht
  have hns : ∀ t ∈ cleanSegs (isRooted s) (splitSlash s), '/' ∉ t :=
    fun t ht => cleanSegs_no_slash ht
  match hsegs : cleanSegs (isRooted s) (splitSlash s) with
  | [] =>
    match hr : isRooted s with
    | true => decide
    | false => decide
  | a :: rest =>
    have ha : a ≠ [] := (hkeep a (hsegs ▸ List.mem_cons_self a rest)).1
    have hJne : List.intercalate ['/'] (a :: rest) ≠ [] := intercalate_ne_nil rest ha
    have hsplit : splitSlash (List.intercalate ['/'] (a :: rest)) = a :: rest :=
      splitSlash_intercalate (by simp)
        (fun t ht => hns t (hsegs ▸ ht))
    have hfilter : (a :: rest).filter (fun p => decide ¬(p = [] ∨ p = ['.'])) = a :: rest := by
      apply List.filter_eq_self.mpr
      intro t ht
      have := hkeep t (hsegs ▸ ht)
      simp [this.1, this.2]
    match hr : isRooted s with
    | true =>
      rw [if_neg (by simp [hJne])]
      show splitSegments ('/' :: List.intercalate ['/'] (a :: rest)) = a :: rest
      simp only [splitSegments, splitSlash_cons]
      rw [hsplit, if_pos trivial, List.filter_cons, if_neg (by simp)]
      exact hfilter
    | false =>
      rw [if_neg (by simp [hJne])]
      show splitSegments (List.intercalate ['/'] (a :: rest)) = a :: rest
      simp only [splitSegments]
      rw [hsplit]
      exact hfilter

theorem goPathClean_ne_nil (s : Str) : goPathClean s ≠ [] := by
  simp only [goPathClean]
  split_ifs <;> simp_all

theorem goPathClean_cases (s : Str) :
    (cleanSegs (isRooted s) (splitSlash s) = [] ∧
      goPathClean s = (if isRooted s then ['/'] else ['.'])) ∨
    (∃ a rest, cleanSegs (isRooted s) (splitSlash s) = a :: rest ∧
      goPathClean s =
        (if isRooted s then ['/'] else []) ++ List.intercalate ['/'] (a :: rest)) := by
  simp only [goPathClean]
  match hsegs : cleanSegs (isRooted s) (splitSlash s) with
  | [] =>
    left
    refine ⟨rfl, ?_⟩
    match hr : isRooted s with
    | true => decide
    | false => decide
  | a :: rest =>
    right
    have ha : a ≠ [] := (mem_cleanSegs_keep (hsegs ▸ List.mem_cons_self a rest)).1
    have hJne := intercalate_ne_nil rest ha
    refine ⟨a, rest, rfl, ?_⟩
    match hr : isRooted s with
    | true => rw [if_neg (by simp [hJne])]
    | false => rw [if_neg (by simp [hJne])]

theorem goPathClean_not_rooted {s : Str} (h : isRooted s = false) :
    isRooted (goPathClean s) = false := by
  rcases goPathClean_cases s with ⟨hsegs, heq⟩ | ⟨a, rest, hsegs, heq⟩
  · rw [heq, h]
    decide
  · have ha : a ≠ [] := (mem_cleanSegs_keep (hsegs ▸ List.mem_cons_self a rest)).1
    have hna : '/' ∉ a := cleanSegs_no_slash (hsegs ▸ List.mem_cons_self a rest)
    rw [heq, h]
    simp only [Bool.false_eq_true, if_false, List.nil_append]
    rw [isRooted, intercalate_head? rest ha]
    match a, ha with
    | c :: a2, _ =>
      have hc : c ≠ '/' := fun hcc => hna (hcc ▸ List.mem_cons_self c a2)
      simp [hc]

theorem goPathClean_no_trailing_slash {s : Str} (h : isRooted s = false) :
    hasSuffixSlash (goPathClean s) = false := by
  rcases goPathClean_cases s with ⟨hsegs, heq⟩ | ⟨a, rest, hsegs, heq⟩
  · rw [heq, h]
    decide
  · rw [heq, h]
    simp only [Bool.false_eq_true, if_false, List.nil_append]
    rcases List.eq_nil_or_concat (a :: rest) with hc | ⟨L, t, hc⟩
    · simp at hc
    · have htm : t ∈ a :: rest := by
        rw [hc, List.concat_eq_append]
        simp
      have ht : t ≠ [] := (mem_cleanSegs_keep (hsegs ▸ htm)).1
      have hnt : '/' ∉ t := cleanSegs_no_slash (hsegs ▸ htm)
      have hLs : ∀ u ∈ L, u ≠ [] := by
        intro u hu
        have hum : u ∈ a :: rest := by
          rw [hc, List.concat_eq_append]
          exact List.mem_append.mpr (Or.inl hu)
        exact (mem_cleanSegs_keep (hsegs ▸ hum)).1
      rw [hasSuffixSlash, hc, List.concat_eq_append, intercalate_getLast2 L t ht hLs]
      match hgl : t.getLast? with
      | none => simp
      | some c =>
        have hct : c ∈ t := List.mem_of_mem_getLast? hgl
        have hcs : c ≠ '/' := fun hcc => hnt (hcc ▸ hct)
        simp [hcs]

theorem goPathClean_chars {s : Str} {c : Char} (h : c ∈ goPathClean s) :
    c = '/' ∨ c = '.' ∨ c ∈ s := by
  rcases goPathClean_cases s with ⟨hsegs, heq⟩ | ⟨a, rest, hsegs, heq⟩
  · rw [heq] at h
    split_ifs at h
    · simp at h
      exact Or.inl h
    · simp at h
      exact Or.inr (Or.inl h)
  · rw [heq] at h
    have hJ : c = '/' ∨ c ∈ List.intercalate ['/'] (a :: rest) := by
      split_ifs at h
      · rcases List.mem_append.mp h with h | h
        · simp at h
          exact Or.inl h
        · exact Or.inr h
      · simp only [List.nil_append] at h
        exact Or.inr h
    rcases hJ with hJ | hJ
    · exact Or.inl hJ
    · rcases intercalate_chars hJ with hJ | ⟨t, ht, hct⟩
      · exact Or.inl hJ
      · rcases mem_cleanSegs (hsegs ▸ ht) with hm | hm
        · rw [hm] at hct
          simp at hct
          exact Or.inr (Or.inl hct)
        · exact Or.inr (Or.inr (mem_splitSlash_chars hm hct))

theorem cleanSegsRev_cons_nil (r : Bool) (acc : List Str) (l : List Str) :
    cleanSegsRev r acc ([] :: l) = cleanSegsRev r acc l := by
  rw [cleanSegsRev, if_pos (Or.inl rfl)]

/-- Go `path.Clean` is idempotent. -/
theorem goPathClean_idem (s : Str) : goPathClean (goPathClean s) = goPathClean s := by
  rcases goPathClean_cases s with ⟨hsegs, heq⟩ | ⟨a, rest, hsegs, heq⟩
  · rw [heq]
    match hr : isRooted s with
    | true => decide
    | false => decide
  · have hkeep : ∀ t ∈ a :: rest, t ≠ [] ∧ t ≠ ['.'] :=
      fun t ht => mem_cleanSegs_keep (hsegs ▸ ht)
    have hns : ∀ t ∈ a :: rest, '/' ∉ t :=
      fun t ht => cleanSegs_no_slash (hsegs ▸ ht)
    have ha : a ≠ [] := (hkeep a (List.mem_cons_self a rest)).1
    have hJne := intercalate_ne_nil rest ha
    have hsplitJ : splitSlash (List.intercalate ['/'] (a :: rest)) = a :: rest :=
      splitSlash_intercalate (by simp) hns
    obtain ⟨k, M, hshape, hdd, hM, hrk⟩ := cleanSegs_shape (isRooted s) (splitSlash s)
    rw [hsegs] at hshape
    match hr : isRooted s with
    | false =>
      rw [hr] at heq
      simp only [Bool.false_eq_true, if_false, List.nil_append] at heq
      have hroot2 : isRooted (goPathClean s) = false := goPathClean_not_rooted hr
      rw [heq] at hroot2
      have hcs : cleanSegs false (a :: rest) = a :: rest := by
        rw [hshape]
        exact cleanSegs_shaped_id false k M hdd hM (by simp)
      rw [heq]
      simp only [goPathClean, hroot2, Bool.false_eq_true, if_false, List.nil_append,
        hsplitJ, hcs]
      rw [if_neg hJne]
    | true =>
      rw [hr] at heq
      simp only [if_true] at heq
      have hk0 : k = 0 := hrk hr
      rw [hk0] at hshape
      simp only [List.replicate_zero, List.nil_append] at hshape
      have hcs : cleanSegs true (a :: rest) = a :: rest := by
        rw [hshape]
        have := cleanSegs_shaped_id true 0 M hdd hM (fun _ => rfl)
        simpa using this
      have heq2 : goPathClean s = '/' :: List.intercalate ['/'] (a :: rest) := heq
      have hroot2 : isRooted (goPathClean s) = true := by
        rw [heq2, isRooted]
        simp
      have hsplit2 : splitSlash (goPathClean s) = [] :: a :: rest := by
        rw [heq2, splitSlash_cons, if_pos rfl, hsplitJ]
      rw [heq2]
      simp only [goPathClean]
      rw [show isRooted ('/' :: List.intercalate ['/'] (a :: rest)) = true from
        heq2 ▸ hroot2]
      rw [show splitSlash ('/' :: List.intercalate ['/'] (a :: rest)) = [] :: a :: rest from
        heq2 ▸ hsplit2]
      rw [show cleanSegs true ([] :: a :: rest) = a :: rest from by
        rw [cleanSegs, cleanSegsRev_cons_nil]
        exact hcs]
      rw [if_neg (by simp)]
      simp

theorem mem_of_mem_dropWhileChar {p : Char → Bool} {l : Str} {c : Char}
    (h : c ∈ l.dropWhile p) : c ∈ l := by
  induction l with
  | nil => simpa using h
  | cons a l2 ih =>
    rw [List.dropWhile_cons] at h
    split_ifs at h
    · exact List.mem_cons_of_mem a (ih h)
    · exact h

theorem mem_of_mem_trimSpace {l : Str} {c : Char} (h : c ∈ trimSpace l) : c ∈ l := by
  simp only [trimSpace, List.mem_reverse] at h
  have h2 := mem_of_mem_dropWhileChar h
  rw [List.mem_reverse] at h2
  exact mem_of_mem_dropWhileChar h2

theorem replaceBackslash_no_backslash (p : Str) : '\\' ∉ replaceBackslash p := by
  intro h
  simp only [replaceBackslash, List.mem_map] at h
  obtain ⟨c, _, hc⟩ := h
  split_ifs at hc with h2
  · exact absurd hc (by decide)
  · exact h2 hc

theorem replaceBackslash_eq_self {v : Str} (h : '\\' ∉ v) : replaceBackslash v = v := by
  induction v with
  | nil => rfl
  | cons a l2 ih =>
    simp only [replaceBackslash, List.map_cons]
    rw [if_neg (show a ≠ '\\' from fun he => h (by rw [← he]; exact List.mem_cons_self a l2))]
    have := ih (fun hc => h (List.mem_cons_of_mem a hc))
    simp only [replaceBackslash] at this
    rw [this]

/-- C9 counterexample: the relative, traversal-free, marker-free input
`a /.` is accepted with output `a ` (path.Clean drops the `.` segment
and leaves a trailing space), but a second normalization trims that
space away: normalizing twice differs from normalizing once. -/
theorem normalize_not_idempotent :
    normalizePolisPath "a /.".toList = Except.ok "a ".toList ∧
      normalizePolisPath "a ".toList = Except.ok "a".toList ∧
      ("a ".toList : Str) ≠ "a".toList := by
  refine ⟨by decide, by decide, by decide⟩

/-- C9 (amended): normalization is idempotent on every accepted input
with no trailing directory marker whose normalized output carries no
surrounding whitespace (the output of `path.Clean` is re-trimmed on the
second pass, so an output with leading or trailing whitespace — only
reachable through inputs like `a /.` — may shrink further). -/
theorem normalize_idempotent (p v : Str)
    (h1 : normalizePolisPath p = Except.ok v)
    (h2 : hasSuffixSlash (trimSpace (replaceBackslash p)) = false)
    (h3 : trimSpace v = v) :
    normalizePolisPath v = Except.ok v := by
  simp only [normalizePolisPath] at h1
  by_cases g1 : trimSpace (replaceBackslash p) = []
  · rw [if_pos g1] at h1
    exact absurd h1 (by simp)
  rw [if_neg g1] at h1
  by_cases g2 : isRooted (trimSpace (replaceBackslash p)) = true
  · rw [if_pos g2] at h1
    exact absurd h1 (by simp)
  rw [if_neg g2] at h1
  by_cases g3 : goPathClean (trimSpace (replaceBackslash p)) = ['.']
  · rw [if_pos g3] at h1
    exact absurd h1 (by simp)
  rw [if_neg g3] at h1
  by_cases g4 : goPathClean (trimSpace (replaceBackslash p)) = ['.', '.'] ∨
      hasPrefixDotDotSlash (goPathClean (trimSpace (replaceBackslash p))) = true
  · rw [if_pos g4] at h1
    exact absurd h1 (by simp)
  rw [if_neg g4, if_neg (by rw [h2]; simp)] at h1
  · have hveq : goPathClean (trimSpace (replaceBackslash p)) = v := by
      simpa using h1
    have hwr : isRooted (trimSpace (replaceBackslash p)) = false := by
      rcases hb : isRooted (trimSpace (replaceBackslash p)) with _ | _
      · rfl
      · exact absurd hb g2
    have hbsw : '\\' ∉ trimSpace (replaceBackslash p) :=
      fun hc => replaceBackslash_no_backslash p (mem_of_mem_trimSpace hc)
    have hbsv : '\\' ∉ v := by
      intro hc
      rw [← hveq] at hc
      rcases goPathClean_chars hc with hc | hc | hc
      · exact absurd hc (by decide)
      · exact absurd hc (by decide)
      · exact hbsw hc
    have hrepl : replaceBackslash v = v := replaceBackslash_eq_self hbsv
    have hvne : v ≠ [] := hveq ▸ goPathClean_ne_nil _
    have hvroot : isRooted v = false := hveq ▸ goPathClean_not_rooted hwr
    have hvslash : hasSuffixSlash v = false := hveq ▸ goPathClean_no_trailing_slash hwr
    have hvclean : goPathClean v = v := by
      rw [← hveq]
      exact goPathClean_idem _
    simp only [normalizePolisPath, hrepl, h3, hvclean]
    rw [if_neg hvne, if_neg (by simp [hvroot]), if_neg (by rw [hveq] at g3; exact g3),
      if_neg (by rw [hveq] at g4; exact g4), if_neg (by simp [hvslash])]

/-- Witness for `normalize_idempotent` at the accepted input `a/./b`. -/
theorem normalize_idempotent_witness :
    normalizePolisPath "a/./b".toList = Except.ok "a/b".toList ∧
    hasSuffixSlash (trimSpace (replaceBackslash "a/./b".toList)) = false ∧
    trimSpace "a/b".toList = "a/b".toList ∧
    normalizePolisPath "a/b".toList = Except.ok "a/b".toList :=
  ⟨by decide, by decide, by decide,
    normalize_idempotent "a/./b".toList "a/b".toList (by decide) (by decide) (by decide)⟩

theorem matchToksF_mono {fuel fuel2 : Nat} {ts : List GTok} {s : Str}
    (hle : fuel ≤ fuel2) (h : matchToksF fuel ts s = true) :
    matchToksF fuel2 ts s = true := by
  induction fuel generalizing fuel2 ts s with
  | zero => simp [matchToksF] at h
  | succ f ih =>
    match fuel2, hle with
    | f2 + 1, hle =>
      have hf : f ≤ f2 := by omega
      match ts with
      | [] => exact h
      | GTok.star :: ts2 =>
        simp only [matchToksF] at h ⊢
        rcases Bool.or_eq_true_iff.mp h with h | h
        · exact Bool.or_eq_true_iff.mpr (Or.inl (ih hf h))
        · refine Bool.or_eq_true_iff.mpr (Or.inr ?_)
          match s, h with
          | c :: s2, h =>
            rcases Bool.and_eq_true_iff.mp h with ⟨h1, h2⟩
            exact Bool.and_eq_true_iff.mpr ⟨h1, ih hf h2⟩
      | GTok.qmark :: ts2 =>
        simp only [matchToksF] at h ⊢
        match s, h with
        | c :: s2, h =>
          rcases Bool.and_eq_true_iff.mp h with ⟨h1, h2⟩
          exact Bool.and_eq_true_iff.mpr ⟨h1, ih hf h2⟩
      | GTok.lit d :: ts2 =>
        simp only [matchToksF] at h ⊢
        match s, h with
        | c :: s2, h =>
          rcases Bool.and_eq_true_iff.mp h with ⟨h1, h2⟩
          exact Bool.and_eq_true_iff.mpr ⟨h1, ih hf h2⟩
      | GTok.cls neg rs :: ts2 =>
        simp only [matchToksF] at h ⊢
        match s, h with
        | c :: s2, h =>
          rcases Bool.and_eq_true_iff.mp h with ⟨h1, h2⟩
          exact Bool.and_eq_true_iff.mpr ⟨h1, ih hf h2⟩

theorem matchToksF_star_absorb {xs ys : Str} {ts : List GTok} {fuel : Nat}
    (hxs : ∀ c ∈ xs, c ≠ '/') (h : matchToksF fuel ts ys = true) :
    matchToksF (xs.length + fuel + 1) (GTok.star :: ts) (xs ++ ys) = true := by
  induction xs with
  | nil =>
    simp only [List.length_nil, Nat.zero_add, List.nil_append]
    simp only [matchToksF]
    exact Bool.or_eq_true_iff.mpr (Or.inl h)
  | cons c xs2 ih =>
    have hstep := ih (fun d hd => hxs d (List.mem_cons_of_mem c hd))
    rw [show (c :: xs2).length + fuel + 1 = (xs2.length + fuel + 1) + 1 by simp; omega]
    simp only [matchToksF]
    refine Bool.or_eq_true_iff.mpr (Or.inr ?_)
    simp only [List.cons_append]
    refine Bool.and_eq_true_iff.mpr ⟨?_, hstep⟩
    have : c ≠ '/' := hxs c (List.mem_cons_self c xs2)
    simp [this]


theorem synthCore_star_nil : synthCore false ['*'] = synthSample := rfl

theorem synthCore_star2 (rest2 : Str) :
    synthCore false ('*' :: '*' :: rest2) = synthSample ++ synthCore false rest2 := rfl

theorem synthCore_qmark (rest : Str) :
    synthCore false ('?' :: rest) = 'x' :: synthCore false rest := by
  rw [synthCore.eq_def]
  simp

theorem synthCore_star1 (c2 : Char) (rest2 : Str) (h : c2 ≠ '*') :
    synthCore false ('*' :: c2 :: rest2) = synthSample ++ synthCore false (c2 :: rest2) := by
  rw [synthCore.eq_def]
  simp [h]

theorem synthCore_lit (c : Char) (rest : Str) (h1 : c ≠ '[') (h2 : c ≠ '*') (h3 : c ≠ '?') :
    synthCore false (c :: rest) = c :: synthCore false rest := by
  rw [synthCore.eq_def]
  simp [h1, h2, h3]

theorem lexGlob_cons_simple (c : Char) (rest : Str) (h1 : c ≠ '\\') (h2 : c ≠ '[') :
    lexGlob (c :: rest) =
      (lexGlob rest).map fun ts =>
        (if c = '*' then GTok.star
         else if c = '?' then GTok.qmark else GTok.lit c) :: ts := by
  show lexGlobF (rest.length + 1 + 1) (c :: rest) = _
  rw [lexGlobF.eq_def]
  by_cases hc1 : c = '*'
  · simp [hc1, lexGlob]
  · by_cases hc2 : c = '?'
    · simp [hc1, hc2, lexGlob]
    · simp [hc1, hc2, h1, h2, lexGlob]

theorem synthCore_ne_nil (s : Str) (h : '[' ∉ s) (hne : s ≠ []) :
    synthCore false s ≠ [] := by
  match s with
  | c :: rest =>
    have hc : c ≠ '[' := fun he => h (he ▸ List.mem_cons_self c rest)
    by_cases hc1 : c = '*'
    · subst hc1
      match rest with
      | [] => rw [synthCore_star_nil]; decide
      | c2 :: rest2 =>
        by_cases hc2 : c2 = '*'
        · subst hc2
          rw [synthCore_star2]
          simp [synthSample]
        · rw [synthCore_star1 c2 rest2 hc2]
          simp [synthSample]
    · by_cases hc3 : c = '?'
      · subst hc3
        rw [synthCore_qmark]
        simp
      · rw [synthCore_lit c rest hc hc1 hc3]
        simp

theorem synthCore_eq_dot (s : Str) (h : '[' ∉ s) :
    synthCore false s = ['.'] ↔ s = ['.'] := by
  constructor
  · intro he
    match s with
    | [] => exact absurd he (by decide)
    | c :: rest =>
      have hc : c ≠ '[' := fun hx => h (hx ▸ List.mem_cons_self c rest)
      by_cases hc1 : c = '*'
      · exfalso
        subst hc1
        match rest with
        | [] => rw [synthCore_star_nil] at he; exact absurd he (by decide)
        | c2 :: rest2 =>
          by_cases hc2 : c2 = '*'
          · subst hc2
            rw [synthCore_star2] at he
            exact absurd (congrArg List.head? he) (by simp [synthSample])
          · rw [synthCore_star1 c2 rest2 hc2] at he
            exact absurd (congrArg List.head? he) (by simp [synthSample])
      · by_cases hc3 : c = '?'
        · exfalso
          subst hc3
          rw [synthCore_qmark] at he
          exact absurd (congrArg List.head? he) (by simp)
        · rw [synthCore_lit c rest hc hc1 hc3] at he
          have hc0 : c = '.' := by simpa using congrArg List.head? he
          have hrest : synthCore false rest = [] := by simpa using congrArg List.tail he
          match rest, hrest with
          | [], _ => rw [hc0]
          | c2 :: rest2, hrest =>
            exact absurd hrest
              (synthCore_ne_nil (c2 :: rest2)
                (fun hx => h (List.mem_cons_of_mem c hx)) (by simp))
  · intro he
    rw [he]
    decide

theorem synthCore_eq_dotdot (s : Str) (h : '[' ∉ s) :
    synthCore false s = ['.', '.'] ↔ s = ['.', '.'] := by
  constructor
  · intro he
    match s with
    | [] => exact absurd he (by decide)
    | c :: rest =>
      have hc : c ≠ '[' := fun hx => h (hx ▸ List.mem_cons_self c rest)
      by_cases hc1 : c = '*'
      · exfalso
        subst hc1
        match rest with
        | [] => rw [synthCore_star_nil] at he; exact absurd he (by decide)
        | c2 :: rest2 =>
          by_cases hc2 : c2 = '*'
          · subst hc2
            rw [synthCore_star2] at he
            exact absurd (congrArg List.head? he) (by simp [synthSample])
          · rw [synthCore_star1 c2 rest2 hc2] at he
            exact absurd (congrArg List.head? he) (by simp [synthSample])
      · by_cases hc3 : c = '?'
        · exfalso
          subst hc3
          rw [synthCore_qmark] at he
          exact absurd (congrArg List.head? he) (by simp)
        · rw [synthCore_lit c rest hc hc1 hc3] at he
          have hc0 : c = '.' := by simpa using congrArg List.head? he
          have hrest : synthCore false rest = ['.'] := by simpa using congrArg List.tail he
          have hrest2 : rest = ['.'] :=
            (synthCore_eq_dot rest (fun hx => h (List.mem_cons_of_mem c hx))).mp hrest
          rw [hc0, hrest2]
  · intro he
    rw [he]
    decide

theorem synth_self_match_aux (n : Nat) : ∀ (s : Str), s.length ≤ n → '[' ∉ s → '\\' ∉ s →
    ∃ ts, lexGlob s = some ts ∧ ts.length = s.length ∧
      matchToks ts (synthCore false s) = true := by
  induction n with
  | zero =>
    intro s hs _ _
    match s, hs with
    | [], _ => exact ⟨[], rfl, rfl, by decide⟩
  | succ n ih =>
    intro s hs h1 h2
    match s with
    | [] => exact ⟨[], rfl, rfl, by decide⟩
    | c :: rest =>
      have hc4 : c ≠ '[' := fun he => h1 (he ▸ List.mem_cons_self c rest)
      have hc5 : c ≠ '\\' := fun he => h2 (he ▸ List.mem_cons_self c rest)
      have h1r : '[' ∉ rest := fun he => h1 (List.mem_cons_of_mem c he)
      have h2r : '\\' ∉ rest := fun he => h2 (List.mem_cons_of_mem c he)
      by_cases hc1 : c = '*'
      · subst hc1
        match rest with
        | [] =>
          refine ⟨[GTok.star], by rw [lexGlob_cons_simple _ _ (by decide) (by decide)]; rfl,
            rfl, ?_⟩
          rw [synthCore_star_nil]
          have hstep1 : matchToksF 1 ([] : List GTok) ([] : Str) = true := by decide
          have hstep2 := @matchToksF_star_absorb synthSample [] [] 1 (by decide) hstep1
          refine matchToksF_mono ?_ (by simpa using hstep2)
          simp [synthSample, matchToks]
        | c2 :: rest2 =>
          by_cases hc2 : c2 = '*'
          · subst hc2
            have h1r2 : '[' ∉ rest2 := fun he => h1r (List.mem_cons_of_mem _ he)
            have h2r2 : '\\' ∉ rest2 := fun he => h2r (List.mem_cons_of_mem _ he)
            obtain ⟨ts2, hlex2, hlen2, hm2⟩ := ih rest2 (by
              simp only [List.length_cons] at hs ⊢
              omega) h1r2 h2r2
            refine ⟨GTok.star :: GTok.star :: ts2, ?_, by simp [hlen2], ?_⟩
            · rw [lexGlob_cons_simple _ _ (by decide) (by decide),
                lexGlob_cons_simple _ _ (by decide) (by decide), hlex2]
              rfl
            · rw [synthCore_star2]
              have hstep1 : matchToksF (ts2.length + (synthCore false rest2).length + 1 + 1)
                  (GTok.star :: ts2) (synthCore false rest2) = true := by
                simp only [matchToksF]
                exact Bool.or_eq_true_iff.mpr (Or.inl hm2)
              have hstep2 := @matchToksF_star_absorb synthSample (synthCore false rest2)
                (GTok.star :: ts2) (ts2.length + (synthCore false rest2).length + 1 + 1)
                (by decide) hstep1
              refine matchToksF_mono ?_ hstep2
              simp [synthSample, matchToks]
              omega
          · have h1r2 : '[' ∉ c2 :: rest2 := h1r
            have h2r2 : '\\' ∉ c2 :: rest2 := h2r
            obtain ⟨ts2, hlex2, hlen2, hm2⟩ := ih (c2 :: rest2) (by
              simp only [List.length_cons] at hs ⊢
              omega) h1r2 h2r2
            refine ⟨GTok.star :: ts2, ?_, by simp [hlen2], ?_⟩
            · rw [lexGlob_cons_simple _ _ (by decide) (by decide), hlex2]
              rfl
            · rw [synthCore_star1 c2 rest2 hc2]
              have hstep2 := @matchToksF_star_absorb synthSample (synthCore false (c2 :: rest2))
                ts2 (ts2.length + (synthCore false (c2 :: rest2)).length + 1)
                (by decide) hm2
              refine matchToksF_mono ?_ hstep2
              simp [synthSample, matchToks]
              omega
      · obtain ⟨ts2, hlex2, hlen2, hm2⟩ := ih rest (by
          simp only [List.length_cons] at hs ⊢
          omega) h1r h2r
        by_cases hc3 : c = '?'
        · subst hc3
          refine ⟨GTok.qmark :: ts2, ?_, by simp [hlen2], ?_⟩
          · rw [lexGlob_cons_simple _ _ (by decide) (by decide), hlex2]
            rfl
          · rw [synthCore_qmark]
            show matchToksF _ _ _ = true
            simp only [matchToksF]
            refine Bool.and_eq_true_iff.mpr ⟨by decide, ?_⟩
            refine matchToksF_mono ?_ hm2
            simp [matchToks]
            omega
        · refine ⟨GTok.lit c :: ts2, ?_, by simp [hlen2], ?_⟩
          · rw [lexGlob_cons_simple _ _ hc5 hc4, hlex2]
            simp [hc1, hc3]
          · rw [synthCore_lit c rest hc4 hc1 hc3]
            show matchToksF _ _ _ = true
            simp only [matchToksF]
            refine Bool.and_eq_true_iff.mpr ⟨by simp, ?_⟩
            refine matchToksF_mono ?_ hm2
            simp [matchToks]
            omega

/-- The key property of pattern synthesis for one segment: a pattern
without character classes and escapes matches its own synthesized
text under Go `path.Match`. -/
theorem goPathMatch_synth (s : Str) (h1 : '[' ∉ s) (h2 : '\\' ∉ s) :
    goPathMatch s (synthCore false s) = true := by
  obtain ⟨ts, hlex, _, hm⟩ := synth_self_match_aux s.length s (Nat.le_refl _) h1 h2
  rw [goPathMatch, hlex]
  exact hm

theorem splitSlash_single {t : Str} (h : '/' ∉ t) : splitSlash t = [t] := by
  apply List.splitOnP_eq_single
  intro c hc hp
  rw [beq_iff_eq] at hp
  exact h (hp ▸ hc)

theorem splitSlash_append_noslash {xs : Str} (ys : Str) (h : '/' ∉ xs)
    {y0 : Str} {yt : List Str} (hy : splitSlash ys = y0 :: yt) :
    splitSlash (xs ++ ys) = (xs ++ y0) :: yt := by
  induction xs with
  | nil => simpa using hy
  | cons c xs2 ih =>
    have hc : c ≠ '/' := fun he => h (he ▸ List.mem_cons_self c xs2)
    rw [List.cons_append, splitSlash_cons, if_neg hc,
      ih (fun he => h (List.mem_cons_of_mem c he))]
    rfl

theorem splitSlash_synth_aux (n : Nat) : ∀ (s : Str), s.length ≤ n → '[' ∉ s →
    splitSlash (synthCore false s) = (splitSlash s).map (synthCore false) := by
  induction n with
  | zero =>
    intro s hs _
    match s, hs with
    | [], _ => rfl
  | succ n ih =>
    intro s hs h1
    match s with
    | [] => rfl
    | c :: rest =>
      have hc4 : c ≠ '[' := fun he => h1 (he ▸ List.mem_cons_self c rest)
      have h1r : '[' ∉ rest := fun he => h1 (List.mem_cons_of_mem c he)
      have hsr : rest.length ≤ n := by
        simp only [List.length_cons] at hs
        omega
      by_cases hsl : c = '/'
      · subst hsl
        rw [synthCore_lit '/' rest (by decide) (by decide) (by decide)]
        rw [splitSlash_cons, if_pos rfl, splitSlash_cons, if_pos rfl, List.map_cons,
          ih rest hsr h1r]
        rfl
      · by_cases hc1 : c = '*'
        · subst hc1
          match rest with
          | [] =>
            rw [synthCore_star_nil, splitSlash_single (by decide)]
            rfl
          | c2 :: rest2 =>
            have h1r2 : '[' ∉ rest2 := fun he => h1r (List.mem_cons_of_mem c2 he)
            by_cases hc2 : c2 = '*'
            · subst hc2
              have hsr2 : rest2.length ≤ n := by
                simp only [List.length_cons] at hs
                omega
              have hihr := ih rest2 hsr2 h1r2
              have hnn := splitSlash_ne_nil rest2
              match hr0 : splitSlash rest2 with
              | r0 :: rt =>
                rw [hr0] at hihr
                rw [synthCore_star2,
                  splitSlash_append_noslash (synthCore false rest2) (by decide) hihr]
                rw [splitSlash_cons, if_neg (by decide), splitSlash_cons, if_neg (by decide),
                  hr0]
                simp only [List.modifyHead, List.map_cons]
                rw [synthCore_star2]
              | [] => exact absurd hr0 hnn
            · have hih := ih (c2 :: rest2) (by
                simp only [List.length_cons] at hs ⊢
                omega) h1r
              have hnn := splitSlash_ne_nil (c2 :: rest2)
              match hq0 : splitSlash (c2 :: rest2) with
              | q0 :: qt =>
                rw [hq0] at hih
                rw [synthCore_star1 c2 rest2 hc2,
                  splitSlash_append_noslash (synthCore false (c2 :: rest2)) (by decide) hih]
                rw [splitSlash_cons, if_neg (by decide), hq0]
                simp only [List.modifyHead, List.map_cons]
                have hq0c : q0 = [] ∨ ∃ q02, q0 = c2 :: q02 := by
                  rw [splitSlash_cons] at hq0
                  split_ifs at hq0 with hc2s
                  · exact Or.inl (by
                      have := congrArg List.head? hq0
                      simpa using this.symm)
                  · have hnn2 := splitSlash_ne_nil rest2
                    match hr : splitSlash rest2 with
                    | r0 :: rt2 =>
                      rw [hr] at hq0
                      simp only [List.modifyHead] at hq0
                      have := congrArg List.head? hq0
                      simp only [List.head?_cons, Option.some.injEq] at this
                      exact Or.inr ⟨r0, this.symm⟩
                    | [] => exact absurd hr hnn2
                rcases hq0c with hq0c | ⟨q02, hq0c⟩
                · rw [hq0c]
                  rw [show synthCore false ('*' :: ([] : Str)) = synthSample from
                    synthCore_star_nil]
                  rfl
                · rw [hq0c, synthCore_star1 c2 q02 hc2]
              | [] => exact absurd hq0 hnn
        · have hih := ih rest hsr h1r
          have hnn := splitSlash_ne_nil rest
          match hr0 : splitSlash rest with
          | r0 :: rt =>
            rw [hr0] at hih
            by_cases hc3 : c = '?'
            · subst hc3
              rw [synthCore_qmark, splitSlash_cons, if_neg (by decide), hih,
                splitSlash_cons, if_neg (by decide), hr0]
              simp only [List.modifyHead, List.map_cons]
              rw [synthCore_qmark]
            · rw [synthCore_lit c rest hc4 hc1 hc3, splitSlash_cons, if_neg hsl, hih,
                splitSlash_cons, if_neg hsl, hr0]
              simp only [List.modifyHead, List.map_cons]
              rw [synthCore_lit c r0 hc4 hc1 hc3]
          | [] => exact absurd hr0 hnn

theorem isRooted_synth (s : Str) (h1 : '[' ∉ s) :
    isRooted (synthCore false s) = isRooted s := by
  match s with
  | [] => rfl
  | c :: rest =>
    have hc4 : c ≠ '[' := fun he => h1 (he ▸ List.mem_cons_self c rest)
    by_cases hc1 : c = '*'
    · subst hc1
      match rest with
      | [] => rw [synthCore_star_nil]; rfl
      | c2 :: rest2 =>
        by_cases hc2 : c2 = '*'
        · subst hc2
          rw [synthCore_star2]
          rfl
        · rw [synthCore_star1 c2 rest2 hc2]
          rfl
    · by_cases hc3 : c = '?'
      · subst hc3
        rw [synthCore_qmark]
        rfl
      · rw [synthCore_lit c rest hc4 hc1 hc3]
        rfl

theorem hasSuffixSlash_synth_aux (n : Nat) : ∀ (s : Str), s.length ≤ n → '[' ∉ s →
    hasSuffixSlash s = false → hasSuffixSlash (synthCore false s) = false := by
  induction n with
  | zero =>
    intro s hs _ _
    match s, hs with
    | [], _ => rfl
  | succ n ih =>
    intro s hs h1 h2
    match s with
    | [] => rfl
    | c :: rest =>
      have hc4 : c ≠ '[' := fun he => h1 (he ▸ List.mem_cons_self c rest)
      have h1r : '[' ∉ rest := fun he => h1 (List.mem_cons_of_mem c he)
      have hsr : rest.length ≤ n := by
        simp only [List.length_cons] at hs
        omega
      have hgl : ∀ (d : Char) (x : Str), x ≠ [] → hasSuffixSlash (d :: x) = hasSuffixSlash x := by
        intro d x hx
        match x with
        | e :: x2 => rw [hasSuffixSlash, hasSuffixSlash, List.getLast?_cons_cons]
      have hglapp : ∀ (u x : Str), x ≠ [] →
          hasSuffixSlash (u ++ x) = hasSuffixSlash x := by
        intro u x hx
        rw [hasSuffixSlash, hasSuffixSlash, List.getLast?_append_of_ne_nil u hx]
      by_cases hc1 : c = '*'
      · subst hc1
        match rest with
        | [] => rw [synthCore_star_nil]; decide
        | c2 :: rest2 =>
          have h2r : hasSuffixSlash (c2 :: rest2) = false := by
            rw [← hgl _ (c2 :: rest2) (by simp)]
            exact h2
          by_cases hc2 : c2 = '*'
          · subst hc2
            rw [synthCore_star2]
            match rest2 with
            | [] => decide
            | c3 :: rest3 =>
              have h1r2 : '[' ∉ c3 :: rest3 := fun he => h1r (List.mem_cons_of_mem _ he)
              have hne2 : synthCore false (c3 :: rest3) ≠ [] :=
                synthCore_ne_nil (c3 :: rest3) h1r2 (by simp)
              rw [hglapp _ _ hne2]
              refine ih (c3 :: rest3) (by
                simp only [List.length_cons] at hs ⊢
                omega) h1r2 ?_
              rw [← hgl _ (c3 :: rest3) (by simp)]
              exact h2r
          · rw [synthCore_star1 c2 rest2 hc2]
            have hne2 : synthCore false (c2 :: rest2) ≠ [] :=
              synthCore_ne_nil (c2 :: rest2) h1r (by simp)
            rw [hglapp _ _ hne2]
            exact ih (c2 :: rest2) hsr h1r h2r
      · by_cases hc3 : c = '?'
        · subst hc3
          rw [synthCore_qmark]
          match rest with
          | [] => decide
          | c2 :: rest2 =>
            have hne2 : synthCore false (c2 :: rest2) ≠ [] :=
              synthCore_ne_nil (c2 :: rest2) h1r (by simp)
            rw [hgl _ _ hne2]
            refine ih (c2 :: rest2) hsr h1r ?_
            rw [← hgl _ (c2 :: rest2) (by simp)]
            exact h2
        · rw [synthCore_lit c rest hc4 hc1 hc3]
          match rest with
          | [] => exact h2
          | c2 :: rest2 =>
            have hne2 : synthCore false (c2 :: rest2) ≠ [] :=
              synthCore_ne_nil (c2 :: rest2) h1r (by simp)
            rw [hgl _ _ hne2]
            refine ih (c2 :: rest2) hsr h1r ?_
            rw [← hgl _ (c2 :: rest2) (by simp)]
            exact h2


theorem cleanSegsRev_map (r : Bool) : ∀ (l acc : List Str),
    (∀ t ∈ l, '[' ∉ t) → (∀ a ∈ acc, '[' ∉ a) →
    cleanSegsRev r (acc.map (synthCore false)) (l.map (synthCore false)) =
      (cleanSegsRev r acc l).map (synthCore false) := by
  intro l
  induction l with
  | nil => intro acc _ _; rfl
  | cons t rest ih =>
    intro acc hl hacc
    have ht : '[' ∉ t := hl t (List.mem_cons_self t rest)
    have hlr : ∀ u ∈ rest, '[' ∉ u := fun u hu => hl u (List.mem_cons_of_mem t hu)
    rw [List.map_cons, cleanSegsRev, cleanSegsRev]
    by_cases hc1 : t = [] ∨ t = ['.']
    · rw [if_pos hc1, if_pos (by
        rcases hc1 with hc1 | hc1
        · exact Or.inl (by rw [hc1]; rfl)
        · exact Or.inr (by rw [hc1]; decide))]
      exact ih acc hlr hacc
    · have hs1 : ¬(synthCore false t = [] ∨ synthCore false t = ['.']) := by
        intro hcc
        rcases hcc with hcc | hcc
        · exact hc1 (Or.inl (by
            by_contra hne
            exact synthCore_ne_nil t ht hne hcc))
        · exact hc1 (Or.inr ((synthCore_eq_dot t ht).mp hcc))
      rw [if_neg hc1, if_neg hs1]
      by_cases hc2 : t = ['.', '.']
      · have hs2 : synthCore false t = ['.', '.'] := (synthCore_eq_dotdot t ht).mpr hc2
        rw [if_pos hc2, if_pos hs2]
        match acc with
        | [] =>
          rw [show (List.map (synthCore false) [] : List Str) = [] from rfl,
            if_pos (show ([] : List Str) = [] from rfl)]
          match r with
          | true =>
            rw [if_pos (show (true : Bool) = true from rfl)]
            exact ih [] hlr (by simp)
          | false =>
            rw [if_neg (show ¬((false : Bool) = true) by decide)]
            exact ih [t] hlr (by
              intro b hb
              simp only [List.mem_singleton] at hb
              rw [hb]
              exact ht)
        | a :: acc2 =>
          have ha : '[' ∉ a := hacc a (List.mem_cons_self a acc2)
          have haccr : ∀ b ∈ acc2, '[' ∉ b := fun b hb => hacc b (List.mem_cons_of_mem a hb)
          rw [show List.map (synthCore false) (a :: acc2) =
            synthCore false a :: List.map (synthCore false) acc2 from rfl,
            if_neg (show ¬(synthCore false a :: List.map (synthCore false) acc2 = []) by simp),
            if_neg (show ¬(a :: acc2 = []) by simp)]
          by_cases hc3 : a = ['.', '.']
          · have hs3 : synthCore false a = ['.', '.'] := (synthCore_eq_dotdot a ha).mpr hc3
            rw [if_pos (show (synthCore false a :: List.map (synthCore false) acc2).head? =
                some ['.', '.'] by rw [List.head?_cons, hs3]),
              if_pos (show (a :: acc2).head? = some ['.', '.'] by rw [List.head?_cons, hc3])]
            exact ih (t :: a :: acc2) hlr (by
              intro b hb
              rcases List.mem_cons.mp hb with hb | hb
              · rw [hb]; exact ht
              · exact hacc b hb)
          · have hs3 : synthCore false a ≠ ['.', '.'] :=
              fun hcc => hc3 ((synthCore_eq_dotdot a ha).mp hcc)
            rw [if_neg (show ¬((synthCore false a :: List.map (synthCore false) acc2).head? =
                some ['.', '.']) by rw [List.head?_cons]; simp [hs3]),
              if_neg (show ¬((a :: acc2).head? = some ['.', '.']) by
                rw [List.head?_cons]; simp [hc3])]
            exact ih acc2 hlr haccr
      · have hs2 : synthCore false t ≠ ['.', '.'] :=
          fun hcc => hc2 ((synthCore_eq_dotdot t ht).mp hcc)
        rw [if_neg hc2, if_neg hs2]
        exact ih (t :: acc) hlr (by
          intro b hb
          rcases List.mem_cons.mp hb with hb | hb
          · rw [hb]; exact ht
          · exact hacc b hb)

theorem cleanSegs_map (r : Bool) (l : List Str) (hl : ∀ t ∈ l, '[' ∉ t) :
    cleanSegs r (l.map (synthCore false)) = (cleanSegs r l).map (synthCore false) := by
  rw [cleanSegs, cleanSegs, List.map_reverse]
  congr 1
  exact cleanSegsRev_map r l [] hl (by simp)

theorem matchSegmentsF_pairwise (g : Str → Str) : ∀ (M : List Str) (fuel : Nat),
    (∀ t ∈ M, goPathMatch t (g t) = true) →
    M.length + M.length < fuel →
    matchSegmentsF fuel M (M.map g) = true := by
  intro M
  induction M with
  | nil =>
    intro fuel _ hlen
    match fuel, hlen with
    | f + 1, _ => rfl
  | cons t M2 ih =>
    intro fuel hM hlen
    have hMr : ∀ u ∈ M2, goPathMatch u (g u) = true :=
      fun u hu => hM u (List.mem_cons_of_mem t hu)
    match fuel, hlen with
    | f + 1, hlen =>
      by_cases hdd : t = ['*', '*']
      · have hf : 1 ≤ f := by
          simp only [List.length_cons] at hlen
          omega
        match f, hf with
        | f2 + 1, _ =>
          have hinner : matchSegmentsF (f2 + 1) (t :: M2) (List.map g M2) = true := by
            simp only [matchSegmentsF]
            rw [if_pos hdd]
            refine Bool.or_eq_true_iff.mpr (Or.inl ?_)
            refine ih f2 hMr ?_
            simp only [List.length_cons] at hlen
            omega
          simp only [matchSegmentsF]
          rw [if_pos hdd]
          refine Bool.or_eq_true_iff.mpr (Or.inr ?_)
          rw [List.map_cons]
          exact hinner
      · simp only [matchSegmentsF]
        rw [if_neg hdd, List.map_cons]
        show (goPathMatch t (g t) && matchSegmentsF f M2 (List.map g M2)) = true
        refine Bool.and_eq_true_iff.mpr ⟨hM t (List.mem_cons_self t M2), ?_⟩
        refine ih f hMr ?_
        simp only [List.length_cons] at hlen
        omega

/-- C3 counterexample: for the pattern `[abc]`, `matchGlobPattern` does not
match the synthesized sample path: synthesis replaces the whole bracket
class with the literal character `x`, which the class `[abc]` rejects. -/
theorem bracket_pattern_not_self_matched :
    matchGlobPattern ("[abc]".toList)
      (synthesizePathFromPattern ("[abc]".toList)) = false := by
  decide

/-- C3 (amended): for every pattern that contains a glob metacharacter,
contains no bracket class and no backslash escape, and does not end in a
slash, `matchGlobPattern` accepts the path produced by
`synthesizePathFromPattern` for that pattern. -/
theorem synthesized_path_matches_pattern (p : Str)
    (hmeta : hasGlobMeta p = true) (hcls : '[' ∉ p) (hesc : '\\' ∉ p)
    (hslash : hasSuffixSlash p = false) :
    matchGlobPattern p (synthesizePathFromPattern p) = true := by
  have hpne : p ≠ [] := by
    intro hc
    rw [hc] at hmeta
    exact absurd hmeta (by decide)
  have hv0ne : synthCore false p ≠ [] := synthCore_ne_nil p hcls hpne
  have hv0slash : hasSuffixSlash (synthCore false p) = false :=
    hasSuffixSlash_synth_aux p.length p (Nat.le_refl _) hcls hslash
  have hsynth : synthesizePathFromPattern p = goPathClean (synthCore false p) := by
    simp only [synthesizePathFromPattern]
    rw [if_neg hv0ne, if_neg (by rw [hv0slash]; exact Bool.false_ne_true)]
  rw [hsynth, matchGlobPattern, goPathClean_idem]
  rw [splitSegments_goPathClean, splitSegments_goPathClean]
  rw [splitSlash_synth_aux p.length p (Nat.le_refl _) hcls]
  rw [isRooted_synth p hcls]
  rw [cleanSegs_map (isRooted p) (splitSlash p)
    (fun t ht hc => hcls (mem_splitSlash_chars ht hc))]
  rw [matchSegments]
  refine matchSegmentsF_pairwise (synthCore false) _ _ ?_ ?_
  · intro t ht
    rcases mem_cleanSegs ht with h | h
    · subst h
      decide
    · exact goPathMatch_synth t (fun hc => hcls (mem_splitSlash_chars h hc))
        (fun hc => hesc (mem_splitSlash_chars h hc))
  · simp only [List.length_map]
    omega

theorem synthesized_path_matches_pattern_witness :
    hasGlobMeta ("logs/*.txt".toList) = true ∧
    matchGlobPattern ("logs/*.txt".toList)
      (synthesizePathFromPattern ("logs/*.txt".toList)) = true :=
  ⟨by decide, synthesized_path_matches_pattern ("logs/*.txt".toList)
    (by decide) (by decide) (by decide) (by decide)⟩
